import Mathlib

set_option maxHeartbeats 1000000

/-!
Verification of the dependency-injection engine of this repository.

Part 1 embeds src/src/di/forward_ref.ts directly.  JavaScript function
objects live in a heap (a list of function records addressed by index);
`forwardRef` mutates its argument in place and `resolveForwardRef`
inspects the own property `__forward_ref__`.

Part 2 models the provider-resolution pipeline and the hierarchical
injector.  The implementation files for those components are not part of
the available sources (only their test suite is), so the definitions are
modelled from the specification, as marked in their doc comments.
-/

/-- JavaScript values relevant to forward_ref.ts: null, undefined, strings,
numbers, ordinary function objects (identified by a heap address), and the
library's own `forwardRef` function, which is the marker value stored in
the `__forward_ref__` own property. -/
inductive JSVal where
  | nullv
  | undef
  | str (s : String)
  | num (n : Int)
  | fn (addr : Nat)
  | forwardRefFn
deriving DecidableEq, Repr

/-- A JavaScript function object (a thunk, for the purposes of
forward_ref.ts): `body` is the value returned when the function is called
with no arguments; `fwdProp` is the own property `__forward_ref__` when
present; `toStrOverride` records whether `toString` has been overridden by
`forwardRef`. -/
structure FnObj where
  body : JSVal
  fwdProp : Option JSVal
  toStrOverride : Bool
deriving DecidableEq, Repr

/-- The heap of function objects; a `JSVal.fn a` points at index `a`. -/
abbrev FnHeap := List FnObj

/-- Embedding of `forwardRef` (src/src/di/forward_ref.ts, lines 50-56):
sets the own property `__forward_ref__` of the given function object to
the `forwardRef` function itself, overrides its `toString`, and returns
the very same function value (no new object is allocated). -/
def forwardRef (a : Nat) (h : FnHeap) : JSVal × FnHeap :=
  match h[a]? with
  | some o => (JSVal.fn a, h.set a { o with fwdProp := some JSVal.forwardRefFn, toStrOverride := true })
  | none => (JSVal.fn a, h)

/-- Embedding of `typeof type == 'function'`. -/
def isFunctionVal : JSVal → Bool
  | .fn _ => true
  | .forwardRefFn => true
  | _ => false

/-- Embedding of reading the own property `__forward_ref__` of a value
(`none` when the value is not a function object carrying that own
property; the library's `forwardRef` function itself carries none). -/
def fwdPropOf (h : FnHeap) : JSVal → Option JSVal
  | .fn a =>
    match h[a]? with
    | some o => o.fwdProp
    | none => none
  | _ => none

/-- Embedding of calling a value as a zero-argument function, `type()`. -/
def callThunk (h : FnHeap) : JSVal → Option JSVal
  | .fn a => (h[a]?).map FnObj.body
  | _ => none

/-- Embedding of `resolveForwardRef` (src/src/di/forward_ref.ts, lines
72-78): when the value is a function whose own property `__forward_ref__`
equals the `forwardRef` function, call it and return the result; otherwise
return the value unchanged. -/
def resolveForwardRef (h : FnHeap) (type : JSVal) : JSVal :=
  if isFunctionVal type && (fwdPropOf h type == some JSVal.forwardRefFn) then
    (callThunk h type).getD type
  else
    type

/-- Modelled from the spec: the `stringify` utility of src/src/util (whose
file is not among the available sources).  It renders a value as a string;
for a function object whose `toString` was overridden by `forwardRef` it
renders the stringification of the thunk's result (the resolved target),
otherwise a default rendering of the function itself.  The fuel bounds
chains of overriding `toString`. -/
def stringifyVal (h : FnHeap) : Nat → JSVal → String
  | _, .nullv => "null"
  | _, .undef => "undefined"
  | _, .str s => s
  | _, .num n => toString n
  | _, .forwardRefFn => "forwardRef"
  | 0, .fn a => "function " ++ toString a
  | fuel+1, .fn a =>
    match h[a]? with
    | some o => if o.toStrOverride then stringifyVal h fuel o.body else "function " ++ toString a
    | none => "function " ++ toString a

/-- Modelled from the spec: a token's key, the stable numeric identity the
Token Identity Registry assigns to a token (ids and tokens are in
bijection, so keys stand in for tokens throughout). -/
abbrev DIKey := Nat

/-- Modelled from the spec: a dependency descriptor, (key, isOptional).
The visibility modifier only matters for parent lookups, which no
resolved claim exercises, so the model covers the single-injector case of
the spec. -/
structure Dependency where
  key : DIKey
  optional : Bool
deriving DecidableEq, Repr

/-- Modelled from the spec: an instantiated value of the object graph.  A
constructed object carries a unique allocation id and the resolved
dependency values it was constructed from; a multi provider yields an
array of instances; `useValue` providers can inject literals or null. -/
inductive Inst where
  | obj (id : Nat) (fields : List Inst)
  | arr (xs : List Inst)
  | lit (s : String)
  | nullv
deriving Repr

/-- Modelled from the spec: what a resolved factory does when invoked.
`make` constructs a fresh object from the resolved dependency values (a
class constructor or ordinary factory function); `value` returns a fixed
value (`useValue`); `conditional` models a factory reading external
mutable state: it throws while the external world flag is set and behaves
like `make` otherwise. -/
inductive FactoryKind where
  | make
  | value (v : Inst)
  | conditional
deriving Repr

/-- Modelled from the spec: ResolvedFactory, a factory together with its
ordered dependency descriptors. -/
structure ResolvedFactory where
  kind : FactoryKind
  deps : List Dependency
deriving Repr

/-- Modelled from the spec: ResolvedProvider, (key, resolvedFactories,
multiProvider).  If multiProvider is true the factories hold one entry
per multi declaration in declaration order, otherwise exactly one entry
taken from the last declaration for the key. -/
structure ResolvedProvider where
  key : DIKey
  resolvedFactories : List ResolvedFactory
  multiProvider : Bool
deriving Repr

/-- Modelled from the spec: a raw provider declaration after normalizing
its shape — the provide key, how its value is produced, its explicit
dependency descriptors, and the multi flag. -/
structure NormProvider where
  provide : DIKey
  kind : FactoryKind
  deps : List Dependency
  multi : Bool
deriving Repr

/-- Modelled from the spec: a raw provider list entry — a bare class token
(an implicit useClass of itself, its dependency descriptors supplied by
the external reflection collaborator), a full provider declaration, or an
arbitrarily nested list of entries. -/
inductive RawProvider where
  | token (k : DIKey)
  | single (p : NormProvider)
  | many (xs : List RawProvider)
deriving Repr

mutual

/-- Modelled from the spec: flattening and normalization of a raw provider
entry (Provider Resolver steps 1-2); `refl` is the external reflection
collaborator yielding a bare class's dependency descriptors. -/
def normalizeRaw (refl : DIKey → List Dependency) : RawProvider → List NormProvider
  | .token k => [⟨k, .make, refl k, false⟩]
  | .single p => [p]
  | .many xs => normalizeRawList refl xs

/-- Modelled from the spec: flattening of a nested raw provider list in
declaration order. -/
def normalizeRawList (refl : DIKey → List Dependency) : List RawProvider → List NormProvider
  | [] => []
  | x :: xs => normalizeRaw refl x ++ normalizeRawList refl xs

end

/-- Modelled from the spec: errors of the provider-resolution phase that
the resolved claims exercise.  `mixedMulti` carries the offending key. -/
inductive ResolveError where
  | mixedMulti (k : DIKey)
deriving DecidableEq, Repr

/-- Modelled from the spec: the single ResolvedProvider produced from one
normalized declaration. -/
def toResolved (p : NormProvider) : ResolvedProvider :=
  ⟨p.provide, [⟨p.kind, p.deps⟩], p.multi⟩

/-- Modelled from the spec: merging one declaration's resolved provider
into the records built so far (Provider Resolver step 4): an unseen key is
appended; a multi-flag clash fails with MixedMultiProviderError naming the
key; agreeing multi declarations append their factories in encounter
order; agreeing non-multi declarations shadow, last write wins. -/
def mergeOne (acc : List ResolvedProvider) (p : ResolvedProvider) :
    Except ResolveError (List ResolvedProvider) :=
  match acc.find? (fun q => q.key == p.key) with
  | none => .ok (acc ++ [p])
  | some q =>
    if q.multiProvider != p.multiProvider then
      .error (.mixedMulti p.key)
    else if p.multiProvider then
      .ok (acc.map (fun r =>
        if r.key == p.key then
          { r with resolvedFactories := r.resolvedFactories ++ p.resolvedFactories }
        else r))
    else
      .ok (acc.map (fun r => if r.key == p.key then p else r))

/-- Modelled from the spec: merging a whole normalized declaration list
into resolved-provider records, in declaration order. -/
def mergeAll (acc : List ResolvedProvider) : List NormProvider →
    Except ResolveError (List ResolvedProvider)
  | [] => .ok acc
  | p :: rest =>
    match mergeOne acc (toResolved p) with
    | .error e => .error e
    | .ok acc' => mergeAll acc' rest

/-- Modelled from the spec: the provider-resolution pipeline over an
already flattened declaration list. -/
def resolveNormalized (entries : List NormProvider) :
    Except ResolveError (List ResolvedProvider) :=
  mergeAll [] entries

/-- Modelled from the spec: the full provider-resolution pipeline from a
raw, possibly nested provider list. -/
def resolveRaw (refl : DIKey → List Dependency) (raw : List RawProvider) :
    Except ResolveError (List ResolvedProvider) :=
  resolveNormalized (normalizeRawList refl raw)

/-- Modelled from the spec: the cache of instantiated singletons, keyed by
key id; entries are only appended, never evicted. -/
abbrev DICache := List (DIKey × Inst)

/-- Modelled from the spec: an injector's state — its immutable resolved
providers, its monotonically growing cache, and the allocator counter
handing out fresh object identities.  The model covers the spec's
single-injector case (no parent or sibling links, which no resolved claim
exercises). -/
structure InjState where
  providers : List ResolvedProvider
  cache : DICache
  nextId : Nat
deriving Repr

/-- Modelled from the spec: the injector error taxonomy for the resolved
claims.  Every error carries the ordered key chain from the originally
requested token to the failure point; `instantiation` additionally
preserves the original error.  `fuelExhausted` is an artifact of the
fuel-bounded embedding, returned only when the recursion bound runs out.
A failing call reports only its error: per the spec a failed instantiation
leaves no stale cache entry, so the caller's state is unchanged. -/
inductive DIError where
  | noProvider (chain : List DIKey)
  | cyclic (chain : List DIKey)
  | instantiation (chain : List DIKey) (original : String)
  | fuelExhausted
deriving DecidableEq, Repr

/-- Modelled from the spec: cache lookup by key. -/
def lookupCache (c : DICache) (k : DIKey) : Option Inst :=
  (c.find? (fun e => e.1 == k)).map (fun e => e.2)

/-- Modelled from the spec: lookup of a key in the injector's own
resolved-provider records. -/
def findProvider (ps : List ResolvedProvider) (k : DIKey) : Option ResolvedProvider :=
  ps.find? (fun q => q.key == k)

mutual

/-- Modelled from the spec: `get` by key (Hierarchical Injector): return
the cached instance when present; otherwise instantiate via the local
provider and cache the result under the key; when no provider exists
return the supplied notFound value if any, else fail with NoProviderError
carrying the chain up to the missing key.  `world` is the external mutable
state read by `conditional` factories; `stack` is the construction stack
of the enclosing request; fuel bounds the recursion depth. -/
def getByKey (world : Bool) : Nat → InjState → List DIKey → DIKey → Option Inst →
    Except DIError (Inst × InjState)
  | 0, _, _, _, _ => .error .fuelExhausted
  | fuel+1, st, stack, k, notFound =>
    match lookupCache st.cache k with
    | some v => .ok (v, st)
    | none =>
      match findProvider st.providers k with
      | some p =>
        match instProvider world fuel st stack k p with
        | .error e => .error e
        | .ok (v, st') => .ok (v, { st' with cache := st'.cache ++ [(k, v)] })
      | none =>
        match notFound with
        | some v => .ok (v, st)
        | none => .error (.noProvider (stack ++ [k]))
termination_by fuel _ _ _ _ => (fuel, 0, 0)

/-- Modelled from the spec: instantiation of a resolved provider
(instantiation algorithm step 2): a multi provider yields the array of
instances built from each of its factories in order; a regular provider
instantiates its single factory. -/
def instProvider (world : Bool) : Nat → InjState → List DIKey → DIKey → ResolvedProvider →
    Except DIError (Inst × InjState)
  | fuel, st, stack, k, p =>
    if p.multiProvider then
      match instFactories world fuel st stack k p.resolvedFactories with
      | .error e => .error e
      | .ok (vs, st') => .ok (.arr vs, st')
    else
      match p.resolvedFactories with
      | f :: _ => instFactory world fuel st stack k f
      | [] => .error (.noProvider (stack ++ [k]))
termination_by fuel _ _ _ _ => (fuel, 5, 0)

/-- Modelled from the spec: instantiation of each factory of a multi
provider, in declaration order, threading the state. -/
def instFactories (world : Bool) : Nat → InjState → List DIKey → DIKey → List ResolvedFactory →
    Except DIError (List Inst × InjState)
  | _, st, _, _, [] => .ok ([], st)
  | fuel, st, stack, k, f :: fs =>
    match instFactory world fuel st stack k f with
    | .error e => .error e
    | .ok (v, st') =>
      match instFactories world fuel st' stack k fs with
      | .error e => .error e
      | .ok (vs, st'') => .ok (v :: vs, st'')
termination_by fuel _ _ _ fs => (fuel, 4, fs.length)

/-- Modelled from the spec: instantiation of a single factory
(instantiation algorithm steps 3 and 5): a key already on the
construction stack fails with CyclicDependencyError reporting the full
cycle path; otherwise the key is pushed, the dependencies are resolved in
declared order, and the factory runs — `make` allocates a fresh object
from the resolved arguments, `value` returns the fixed value, and
`conditional` throws (InstantiationError preserving the original error
and the chain context) while the external world flag is set. -/
def instFactory (world : Bool) : Nat → InjState → List DIKey → DIKey → ResolvedFactory →
    Except DIError (Inst × InjState)
  | fuel, st, stack, k, f =>
    if stack.contains k then
      .error (.cyclic (stack ++ [k]))
    else
      match resolveDeps world fuel st (stack ++ [k]) f.deps with
      | .error e => .error e
      | .ok (args, st') =>
        match f.kind with
        | .make => .ok (.obj st'.nextId args, { st' with nextId := st'.nextId + 1 })
        | .value v => .ok (v, st')
        | .conditional =>
          if world then .error (.instantiation (stack ++ [k]) "Broken Engine")
          else .ok (.obj st'.nextId args, { st' with nextId := st'.nextId + 1 })
termination_by fuel _ _ _ _ => (fuel, 3, 0)

/-- Modelled from the spec: resolution of a factory's dependency list in
declared order, threading the state. -/
def resolveDeps (world : Bool) : Nat → InjState → List DIKey → List Dependency →
    Except DIError (List Inst × InjState)
  | _, st, _, [] => .ok ([], st)
  | fuel, st, stack, d :: ds =>
    match getByDep world fuel st stack d with
    | .error e => .error e
    | .ok (v, st') =>
      match resolveDeps world fuel st' stack ds with
      | .error e => .error e
      | .ok (vs, st'') => .ok (v :: vs, st'')
termination_by fuel _ _ ds => (fuel, 2, ds.length)

/-- Modelled from the spec: resolution of one dependency (instantiation
algorithm step 4, single-injector case): look the key up through the
normal get path; an optional dependency whose key has no provider yields
null instead of failing. -/
def getByDep (world : Bool) : Nat → InjState → List DIKey → Dependency →
    Except DIError (Inst × InjState)
  | fuel, st, stack, d =>
    getByKey world fuel st stack d.key (if d.optional then some .nullv else none)
termination_by fuel _ _ _ => (fuel, 1, 0)

end

/-- Modelled from the spec: the public `get(token)` of the injector — a
fresh request with an empty construction stack and no notFound value. -/
def Injector.get (world : Bool) (fuel : Nat) (st : InjState) (k : DIKey) :
    Except DIError (Inst × InjState) :=
  getByKey world fuel st [] k none

/-- Modelled from the spec: `instantiateResolved` — build an instance from
a resolved provider using this injector's providers for dependency
resolution, without storing the result in the cache (dependencies resolved
on the way go through the normal get path and are cached). -/
def instantiateResolved (world : Bool) (fuel : Nat) (st : InjState) (p : ResolvedProvider) :
    Except DIError (Inst × InjState) :=
  instProvider world fuel st [] p.key p

/-- Modelled from the spec: `resolveAndInstantiate(token)` — resolve the
single bare-token provider (an implicit useClass of itself, dependency
descriptors supplied by the reflection collaborator `refl`; resolving a
one-element list always yields its single resolved record) and instantiate
it without caching the result. -/
def resolveAndInstantiate (world : Bool) (fuel : Nat) (st : InjState)
    (refl : DIKey → List Dependency) (k : DIKey) : Except DIError (Inst × InjState) :=
  instantiateResolved world fuel st (toResolved ⟨k, .make, refl k, false⟩)

/-- The ResolvedFactory contributed by one normalized declaration. -/
def mkFac (p : NormProvider) : ResolvedFactory := ⟨p.kind, p.deps⟩

/-- The declarations of a flattened provider list for one key, in
declaration order. -/
def entriesFor (l : List NormProvider) (k : DIKey) : List NormProvider :=
  l.filter (fun p => p.provide == k)

/-- The resolved records of a record list for one key, in order. -/
def accFor (acc : List ResolvedProvider) (k : DIKey) : List ResolvedProvider :=
  acc.filter (fun q => q.key == k)

/-- Some record for key k with multi flag m is among the resolved
records. -/
def accHasFlag (acc : List ResolvedProvider) (k : DIKey) (m : Bool) : Prop :=
  ∃ q ∈ acc, q.key = k ∧ q.multiProvider = m

/-- Some declaration for key k with multi flag m is in the list. -/
def entsHasFlag (l : List NormProvider) (k : DIKey) (m : Bool) : Prop :=
  ∃ p ∈ l, p.provide = k ∧ p.multi = m

/-- Key k has both a multi and a non-multi declaration in the list. -/
def isMixed (l : List NormProvider) (k : DIKey) : Prop :=
  entsHasFlag l k true ∧ entsHasFlag l k false

/-- Key k is mixed across the records built so far and the remaining
declarations. -/
def MixedAt (acc : List ResolvedProvider) (rest : List NormProvider) (k : DIKey) : Prop :=
  (accHasFlag acc k true ∨ entsHasFlag rest k true) ∧
  (accHasFlag acc k false ∨ entsHasFlag rest k false)

/-- The resolved records hold at most one record per key. -/
def accWF (acc : List ResolvedProvider) : Prop :=
  acc.Pairwise (fun q r => q.key ≠ r.key)

/-- State evolution of a successful engine step: providers are immutable,
allocation ids grow, cache entries persist, and no cache entry appears
for a key that has no provider or is on the construction stack (a key
mid-construction cannot complete underneath itself). -/
def PresS (stack : List DIKey) (st st2 : InjState) : Prop :=
  st2.providers = st.providers ∧
  st.nextId ≤ st2.nextId ∧
  (∀ k v, lookupCache st.cache k = some v → lookupCache st2.cache k = some v) ∧
  (∀ k, lookupCache st.cache k = none →
    (findProvider st.providers k = none ∨ k ∈ stack) → lookupCache st2.cache k = none)

/-- Every provider record holds at least one factory; true of every list
the provider-resolution phase produces. -/
def WFProviders (st : InjState) : Prop :=
  ∀ p ∈ st.providers, p.resolvedFactories ≠ []

mutual

/-- Every allocation id in the instance is below the bound. -/
def Inst.idsLt : Nat → Inst → Bool
  | b, .obj i fs => decide (i < b) && Inst.idsLtL b fs
  | b, .arr xs => Inst.idsLtL b xs
  | _, .lit _ => true
  | _, .nullv => true

/-- Every allocation id in the instances is below the bound. -/
def Inst.idsLtL : Nat → List Inst → Bool
  | _, [] => true
  | b, x :: xs => Inst.idsLt b x && Inst.idsLtL b xs

end

/-- All cached instances use only allocation ids below the allocator
counter; true of every state the engine reaches from an empty cache. -/
def WFCache (st : InjState) : Bool :=
  st.cache.all (fun e => Inst.idsLt st.nextId e.2)


theorem heapGetSetSelf (h : FnHeap) (a : Nat) (x : FnObj) (ha : a < h.length) :
    (h.set a x)[a]? = some x := by
  induction h generalizing a with
  | nil => simp at ha
  | cons y ys ih =>
    cases a with
    | zero => simp [List.set]
    | succ n =>
      simp only [List.set, List.getElem?_cons_succ]
      exact ih n (by simpa using ha)

theorem heapGetSetNe (h : FnHeap) (a b : Nat) (x : FnObj) (hne : b ≠ a) :
    (h.set a x)[b]? = h[b]? := by
  induction h generalizing a b with
  | nil => simp
  | cons y ys ih =>
    cases a with
    | zero =>
      cases b with
      | zero => exact absurd rfl hne
      | succ m => simp [List.set]
    | succ n =>
      cases b with
      | zero => simp [List.set]
      | succ m =>
        simp only [List.set, List.getElem?_cons_succ]
        exact ih n m (fun hc => hne (by rw [hc]))

/-- C6: `resolveForwardRef` is total and, for every input value: a function
carrying the deferred-reference marker (own property `__forward_ref__`
equal to the `forwardRef` function) resolves to its thunk's result; every
other input, including null, is returned unchanged. -/
theorem C6_resolveForwardRef_identity_or_thunk (h : FnHeap) (a : Nat) (o : FnObj) :
    (h[a]? = some o → o.fwdProp = some JSVal.forwardRefFn →
        resolveForwardRef h (JSVal.fn a) = o.body) ∧
    (h[a]? = some o → o.fwdProp ≠ some JSVal.forwardRefFn →
        resolveForwardRef h (JSVal.fn a) = JSVal.fn a) ∧
    (h[a]? = none → resolveForwardRef h (JSVal.fn a) = JSVal.fn a) ∧
    (∀ v : JSVal, isFunctionVal v = false → resolveForwardRef h v = v) ∧
    resolveForwardRef h JSVal.forwardRefFn = JSVal.forwardRefFn ∧
    resolveForwardRef h JSVal.nullv = JSVal.nullv := by
  refine ⟨?_, ?_, ?_, ?_, ?_, ?_⟩
  · intro h1 h2
    simp [resolveForwardRef, fwdPropOf, callThunk, isFunctionVal, h1, h2]
  · intro h1 h2
    simp [resolveForwardRef, fwdPropOf, callThunk, isFunctionVal, h1, h2]
  · intro h1
    simp [resolveForwardRef, fwdPropOf, callThunk, isFunctionVal, h1]
  · intro v hv
    simp [resolveForwardRef, hv]
  · simp [resolveForwardRef, fwdPropOf]
  · simp [resolveForwardRef, isFunctionVal]

/-- Witness for C6 at concrete inputs: a marked thunk resolves to its
body, an unmarked function and null are returned unchanged. -/
theorem C6_witness :
    resolveForwardRef [⟨JSVal.str "Lock", some JSVal.forwardRefFn, true⟩,
        ⟨JSVal.str "x", none, false⟩] (JSVal.fn 0) = JSVal.str "Lock" ∧
    resolveForwardRef [⟨JSVal.str "Lock", some JSVal.forwardRefFn, true⟩,
        ⟨JSVal.str "x", none, false⟩] (JSVal.fn 1) = JSVal.fn 1 ∧
    resolveForwardRef [⟨JSVal.str "Lock", some JSVal.forwardRefFn, true⟩,
        ⟨JSVal.str "x", none, false⟩] JSVal.nullv = JSVal.nullv := by
  refine ⟨?_, ?_, ?_⟩
  · exact (C6_resolveForwardRef_identity_or_thunk _ 0
      ⟨JSVal.str "Lock", some JSVal.forwardRefFn, true⟩).1 rfl rfl
  · exact (C6_resolveForwardRef_identity_or_thunk _ 1
      ⟨JSVal.str "x", none, false⟩).2.1 rfl (by decide)
  · exact (C6_resolveForwardRef_identity_or_thunk _ 0
      ⟨JSVal.str "Lock", some JSVal.forwardRefFn, true⟩).2.2.2.2.2

/-- C7: the value returned by `forwardRef` has a string representation
that, when requested, is the stringification of the resolved target
`fn()`, not of the thunk function itself. -/
theorem C7_forwardRef_toString (h : FnHeap) (a : Nat) (o : FnObj) (fuel : Nat)
    (ha : h[a]? = some o) :
    callThunk (forwardRef a h).2 (forwardRef a h).1 = some o.body ∧
    stringifyVal (forwardRef a h).2 (fuel+1) (forwardRef a h).1 =
      stringifyVal (forwardRef a h).2 fuel o.body := by
  have hlt : a < h.length := by
    rcases List.getElem?_eq_some.mp ha with ⟨hl, _⟩
    exact hl
  have hset : (h.set a { o with fwdProp := some JSVal.forwardRefFn, toStrOverride := true })[a]? =
      some { o with fwdProp := some JSVal.forwardRefFn, toStrOverride := true } :=
    heapGetSetSelf h a _ hlt
  constructor
  · simp [forwardRef, ha, callThunk, hset]
  · simp [forwardRef, ha, stringifyVal, hset]

/-- Witness for C7 at a concrete input: after marking address 0 (a thunk
returning the string "Lock"), its string representation is that of the
resolved target. -/
theorem C7_witness :
    callThunk (forwardRef 0 [⟨JSVal.str "Lock", none, false⟩]).2
        (forwardRef 0 [⟨JSVal.str "Lock", none, false⟩]).1 = some (JSVal.str "Lock") ∧
    stringifyVal (forwardRef 0 [⟨JSVal.str "Lock", none, false⟩]).2 1
        (forwardRef 0 [⟨JSVal.str "Lock", none, false⟩]).1 = "Lock" :=
  C7_forwardRef_toString [⟨JSVal.str "Lock", none, false⟩] 0
    ⟨JSVal.str "Lock", none, false⟩ 0 rfl

/-- C8: `forwardRef` returns the very same function object it was given
(same heap address, no allocation), mutating it in place: the marker and
the `toString` override are attached, the thunk body is preserved, and
every other heap cell is untouched. -/
theorem C8_forwardRef_in_place (h : FnHeap) (a : Nat) (o : FnObj)
    (ha : h[a]? = some o) :
    (forwardRef a h).1 = JSVal.fn a ∧
    (forwardRef a h).2[a]? =
      some { o with fwdProp := some JSVal.forwardRefFn, toStrOverride := true } ∧
    (forwardRef a h).2.length = h.length ∧
    (∀ b : Nat, b ≠ a → (forwardRef a h).2[b]? = h[b]?) ∧
    fwdPropOf (forwardRef a h).2 (JSVal.fn a) = some JSVal.forwardRefFn := by
  have hlt : a < h.length := by
    rcases List.getElem?_eq_some.mp ha with ⟨hl, _⟩
    exact hl
  have hset : (h.set a { o with fwdProp := some JSVal.forwardRefFn, toStrOverride := true })[a]? =
      some { o with fwdProp := some JSVal.forwardRefFn, toStrOverride := true } :=
    heapGetSetSelf h a _ hlt
  refine ⟨?_, ?_, ?_, ?_, ?_⟩
  · simp [forwardRef, ha]
  · simp [forwardRef, ha, hset]
  · simp [forwardRef, ha]
  · intro b hb
    simp only [forwardRef, ha]
    exact heapGetSetNe h a b _ hb
  · simp [forwardRef, ha, fwdPropOf, hset]

/-- Witness for C8 at a concrete one-cell heap. -/
theorem C8_witness :
    (forwardRef 0 [⟨JSVal.str "Lock", none, false⟩]).1 = JSVal.fn 0 ∧
    (forwardRef 0 [⟨JSVal.str "Lock", none, false⟩]).2[0]? =
      some ⟨JSVal.str "Lock", some JSVal.forwardRefFn, true⟩ ∧
    (forwardRef 0 [⟨JSVal.str "Lock", none, false⟩]).2.length = 1 :=
  ⟨(C8_forwardRef_in_place [⟨JSVal.str "Lock", none, false⟩] 0
      ⟨JSVal.str "Lock", none, false⟩ rfl).1,
   (C8_forwardRef_in_place [⟨JSVal.str "Lock", none, false⟩] 0
      ⟨JSVal.str "Lock", none, false⟩ rfl).2.1,
   (C8_forwardRef_in_place [⟨JSVal.str "Lock", none, false⟩] 0
      ⟨JSVal.str "Lock", none, false⟩ rfl).2.2.1⟩

/-- C9: `resolveForwardRef` unwraps exactly one level of deferral: for a
marked thunk whose body is another marked thunk, one application returns
the inner thunk itself (still marked), not the inner thunk's target; a
second application is needed to reach the target. -/
theorem C9_resolveForwardRef_single_level (h : FnHeap) (a b : Nat) (oa ob : FnObj)
    (hha : h[a]? = some oa) (hfa : oa.fwdProp = some JSVal.forwardRefFn)
    (hba : oa.body = JSVal.fn b)
    (hhb : h[b]? = some ob) (hfb : ob.fwdProp = some JSVal.forwardRefFn)
    (hne : ob.body ≠ JSVal.fn b) :
    resolveForwardRef h (JSVal.fn a) = JSVal.fn b ∧
    resolveForwardRef h (JSVal.fn a) ≠ ob.body ∧
    fwdPropOf h (resolveForwardRef h (JSVal.fn a)) = some JSVal.forwardRefFn ∧
    resolveForwardRef h (resolveForwardRef h (JSVal.fn a)) = ob.body := by
  have h1 : resolveForwardRef h (JSVal.fn a) = JSVal.fn b := by
    simp [resolveForwardRef, fwdPropOf, callThunk, isFunctionVal, hha, hfa, hba]
  refine ⟨h1, ?_, ?_, ?_⟩
  · rw [h1]
    exact fun hc => hne hc.symm
  · rw [h1]
    simp [fwdPropOf, hhb, hfb]
  · rw [h1]
    simp [resolveForwardRef, fwdPropOf, callThunk, isFunctionVal, hhb, hfb]

/-- Witness for C9 at a concrete two-cell heap: cell 0 is a marked thunk
returning the marked thunk at cell 1, whose own body is a string. -/
theorem C9_witness :
    resolveForwardRef [⟨JSVal.fn 1, some JSVal.forwardRefFn, true⟩,
        ⟨JSVal.str "T", some JSVal.forwardRefFn, true⟩] (JSVal.fn 0) = JSVal.fn 1 ∧
    resolveForwardRef [⟨JSVal.fn 1, some JSVal.forwardRefFn, true⟩,
        ⟨JSVal.str "T", some JSVal.forwardRefFn, true⟩]
      (resolveForwardRef [⟨JSVal.fn 1, some JSVal.forwardRefFn, true⟩,
        ⟨JSVal.str "T", some JSVal.forwardRefFn, true⟩] (JSVal.fn 0)) = JSVal.str "T" :=
  ⟨(C9_resolveForwardRef_single_level _ 0 1 _ _ rfl rfl rfl rfl rfl (by decide)).1,
   (C9_resolveForwardRef_single_level _ 0 1 _ _ rfl rfl rfl rfl rfl (by decide)).2.2.2⟩


theorem lookupCacheAppendSome (c c' : DICache) (k : DIKey) (v : Inst)
    (h : lookupCache c k = some v) : lookupCache (c ++ c') k = some v := by
  induction c with
  | nil => simp [lookupCache] at h
  | cons e es ih =>
    simp only [lookupCache, List.find?] at h ⊢
    rcases he : (e.1 == k) with _ | _
    · simp only [he] at h ⊢
      exact ih h
    · simp only [he] at h ⊢
      simpa using h

theorem lookupCacheAppendNone (c : DICache) (k j : DIKey) (v : Inst)
    (h : lookupCache c k = none) :
    lookupCache (c ++ [(j, v)]) k = if j == k then some v else none := by
  induction c with
  | nil =>
    simp only [List.nil_append, lookupCache, List.find?]
    by_cases hjk : j = k
    · simp [hjk]
    · have hb : (j == k) = false := by simp [hjk]
      simp [hb, hjk]
  | cons e es ih =>
    simp only [lookupCache, List.cons_append, List.find?] at h ⊢
    rcases he : (e.1 == k) with _ | _
    · simp only [he] at h ⊢
      exact ih h
    · simp only [he] at h
      simp at h

/-- C2: for every cyclic construction dependency in which class `a`
depends on `b` and `b` depends on `a`, `get a` fails with
CyclicDependencyError and the reported chain is exactly a -> b -> a: the
requested key, the intermediate key, and the repeated key, in that
order. -/
theorem C2_cyclic_dependency_chain (world : Bool) (st : InjState) (a b : DIKey) (fuel : Nat)
    (hab : a ≠ b)
    (hpa : findProvider st.providers a = some ⟨a, [⟨.make, [⟨b, false⟩]⟩], false⟩)
    (hpb : findProvider st.providers b = some ⟨b, [⟨.make, [⟨a, false⟩]⟩], false⟩)
    (hca : lookupCache st.cache a = none)
    (hcb : lookupCache st.cache b = none) :
    Injector.get world (fuel + 3) st a = .error (.cyclic [a, b, a]) := by
  have e3 : fuel + 3 = (fuel + 2) + 1 := rfl
  have e2 : fuel + 2 = (fuel + 1) + 1 := rfl
  have hba : b ≠ a := fun hx => hab hx.symm
  simp [Injector.get, e3, e2, getByKey, instProvider, instFactory, resolveDeps,
    getByDep, hca, hcb, hpa, hpb, hab, hba]

/-- Witness for C2: a two-class cycle between keys 10 and 20. -/
theorem C2_witness :
    Injector.get false 3
      ⟨[⟨10, [⟨.make, [⟨20, false⟩]⟩], false⟩, ⟨20, [⟨.make, [⟨10, false⟩]⟩], false⟩], [], 0⟩
      10 = .error (.cyclic [10, 20, 10]) :=
  C2_cyclic_dependency_chain false
    ⟨[⟨10, [⟨.make, [⟨20, false⟩]⟩], false⟩, ⟨20, [⟨.make, [⟨10, false⟩]⟩], false⟩], [], 0⟩
    10 20 0 (by decide) rfl rfl rfl rfl

/-- C5: a token whose factory throws during construction fails with an
InstantiationError wrapping the original error, and the failing call
leaves the injector's cache without an entry for that key, so a later
`get` for the same token re-runs the factory and, when the external
conditions have changed so the factory no longer throws, succeeds,
returns the freshly constructed instance, and only then caches it. -/
theorem C5_failed_instantiation_recoverable (st : InjState) (k : DIKey) (fuel f2 : Nat)
    (hp : findProvider st.providers k = some ⟨k, [⟨.conditional, []⟩], false⟩)
    (hc : lookupCache st.cache k = none) :
    Injector.get true (fuel + 1) st k = .error (.instantiation [k] "Broken Engine") ∧
    Injector.get false (f2 + 1) st k =
      .ok (.obj st.nextId [],
        ⟨st.providers, st.cache ++ [(k, .obj st.nextId [])], st.nextId + 1⟩) ∧
    lookupCache (st.cache ++ [(k, Inst.obj st.nextId [])]) k = some (.obj st.nextId []) := by
  refine ⟨?_, ?_, ?_⟩
  · simp [Injector.get, getByKey, instProvider, instFactory, resolveDeps, hp, hc]
  · simp [Injector.get, getByKey, instProvider, instFactory, resolveDeps, hp, hc]
  · rw [lookupCacheAppendNone st.cache k k _ hc]
    simp

/-- Witness for C5: a single conditional provider at key 7 over an empty
cache. -/
theorem C5_witness :
    Injector.get true 1 ⟨[⟨7, [⟨.conditional, []⟩], false⟩], [], 0⟩ 7 =
      .error (.instantiation [7] "Broken Engine") ∧
    Injector.get false 1 ⟨[⟨7, [⟨.conditional, []⟩], false⟩], [], 0⟩ 7 =
      .ok (.obj 0 [], ⟨[⟨7, [⟨.conditional, []⟩], false⟩], [(7, .obj 0 [])], 1⟩) :=
  ⟨(C5_failed_instantiation_recoverable
      ⟨[⟨7, [⟨.conditional, []⟩], false⟩], [], 0⟩ 7 0 0 rfl rfl).1,
   (C5_failed_instantiation_recoverable
      ⟨[⟨7, [⟨.conditional, []⟩], false⟩], [], 0⟩ 7 0 0 rfl rfl).2.1⟩

/-- C10: `resolveAndInstantiate` and `instantiateResolved` do not cache
the requested instance itself but resolve its dependencies through the
injector's normal get path and therefore cache those dependencies: after
resolving-and-instantiating a class `c` whose single dependency is `e`,
the constructed object's `e` field is the identical instance a later
`get e` returns from the cache. -/
theorem C10_rai_caches_dependencies (world : Bool) (st : InjState) (c e : DIKey)
    (refl : DIKey → List Dependency) (fuel f2 : Nat)
    (hce : e ≠ c)
    (hrefl : refl c = [⟨e, false⟩])
    (hpe : findProvider st.providers e = some ⟨e, [⟨.make, []⟩], false⟩)
    (hcache : lookupCache st.cache e = none) :
    resolveAndInstantiate world (fuel + 1) st refl c =
      .ok (.obj (st.nextId + 1) [.obj st.nextId []],
        ⟨st.providers, st.cache ++ [(e, .obj st.nextId [])], st.nextId + 2⟩) ∧
    instantiateResolved world (fuel + 1) st (toResolved ⟨c, .make, refl c, false⟩) =
      resolveAndInstantiate world (fuel + 1) st refl c ∧
    Injector.get world (f2 + 1)
        ⟨st.providers, st.cache ++ [(e, .obj st.nextId [])], st.nextId + 2⟩ e =
      .ok (.obj st.nextId [],
        ⟨st.providers, st.cache ++ [(e, .obj st.nextId [])], st.nextId + 2⟩) := by
  have hcache2 : lookupCache (st.cache ++ [(e, Inst.obj st.nextId [])]) e =
      some (.obj st.nextId []) := by
    rw [lookupCacheAppendNone st.cache e e _ hcache]
    simp
  refine ⟨?_, rfl, ?_⟩
  · simp [resolveAndInstantiate, instantiateResolved, toResolved, instProvider,
      instFactory, resolveDeps, getByDep, getByKey, hrefl, hpe, hcache, hce]
  · simp [Injector.get, getByKey, hcache2]

/-- Witness for C10: engine key 5 provided, car key 9 resolved and
instantiated on demand over an empty cache. -/
theorem C10_witness :
    resolveAndInstantiate false 1 ⟨[⟨5, [⟨.make, []⟩], false⟩], [], 0⟩
        (fun k => if k == 9 then [⟨5, false⟩] else []) 9 =
      .ok (.obj 1 [.obj 0 []], ⟨[⟨5, [⟨.make, []⟩], false⟩], [(5, .obj 0 [])], 2⟩) ∧
    Injector.get false 1 ⟨[⟨5, [⟨.make, []⟩], false⟩], [(5, .obj 0 [])], 2⟩ 5 =
      .ok (.obj 0 [], ⟨[⟨5, [⟨.make, []⟩], false⟩], [(5, .obj 0 [])], 2⟩) :=
  ⟨(C10_rai_caches_dependencies false ⟨[⟨5, [⟨.make, []⟩], false⟩], [], 0⟩ 9 5
      (fun k => if k == 9 then [⟨5, false⟩] else []) 0 0 (by decide) rfl rfl rfl).1,
   (C10_rai_caches_dependencies false ⟨[⟨5, [⟨.make, []⟩], false⟩], [], 0⟩ 9 5
      (fun k => if k == 9 then [⟨5, false⟩] else []) 0 0 (by decide) rfl rfl rfl).2.2⟩

theorem accWFUnique (acc : List ResolvedProvider) (hwf : accWF acc)
    (q r : ResolvedProvider) (hq : q ∈ acc) (hr : r ∈ acc) (hk : q.key = r.key) :
    q = r := by
  induction acc with
  | nil => cases hq
  | cons x xs ih =>
    rcases List.pairwise_cons.mp hwf with ⟨hx, hxs⟩
    rcases List.mem_cons.mp hq with hq1 | hq2
    · rcases List.mem_cons.mp hr with hr1 | hr2
      · rw [hq1, hr1]
      · subst hq1
        exact absurd hk (hx r hr2)
    · rcases List.mem_cons.mp hr with hr1 | hr2
      · subst hr1
        exact absurd hk.symm (hx q hq2)
      · exact ih hxs hq2 hr2

theorem accWFNoBothFlags (acc : List ResolvedProvider) (hwf : accWF acc) (k : DIKey)
    (h1 : accHasFlag acc k true) (h0 : accHasFlag acc k false) : False := by
  rcases h1 with ⟨q, hq, hqk, hqm⟩
  rcases h0 with ⟨r, hr, hrk, hrm⟩
  have hqr : q = r := accWFUnique acc hwf q r hq hr (by rw [hqk, hrk])
  rw [hqr, hrm] at hqm
  cases hqm

theorem entsHasFlagNil (k : DIKey) (m : Bool) : ¬ entsHasFlag [] k m := by
  rintro ⟨p, hp, _⟩
  cases hp

theorem accHasFlagAppendSingle (acc : List ResolvedProvider) (x : ResolvedProvider)
    (k : DIKey) (m : Bool) :
    accHasFlag (acc ++ [x]) k m ↔ accHasFlag acc k m ∨ (x.key = k ∧ x.multiProvider = m) := by
  constructor
  · rintro ⟨q, hq, hqk, hqm⟩
    rcases List.mem_append.mp hq with hq | hq
    · exact Or.inl ⟨q, hq, hqk, hqm⟩
    · rcases List.mem_singleton.mp hq with rfl
      exact Or.inr ⟨hqk, hqm⟩
  · rintro (⟨q, hq, hqk, hqm⟩ | ⟨hk, hm⟩)
    · exact ⟨q, List.mem_append.mpr (Or.inl hq), hqk, hqm⟩
    · exact ⟨x, List.mem_append.mpr (Or.inr (List.mem_singleton.mpr rfl)), hk, hm⟩

theorem entsHasFlagCons (p : NormProvider) (rest : List NormProvider) (k : DIKey) (m : Bool) :
    entsHasFlag (p :: rest) k m ↔ (p.provide = k ∧ p.multi = m) ∨ entsHasFlag rest k m := by
  constructor
  · rintro ⟨q, hq, hqk, hqm⟩
    rcases List.mem_cons.mp hq with rfl | hq
    · exact Or.inl ⟨hqk, hqm⟩
    · exact Or.inr ⟨q, hq, hqk, hqm⟩
  · rintro (⟨hk, hm⟩ | ⟨q, hq, hqk, hqm⟩)
    · exact ⟨p, List.mem_cons_self p rest, hk, hm⟩
    · exact ⟨q, List.mem_cons_of_mem p hq, hqk, hqm⟩

theorem accHasFlagMap (acc : List ResolvedProvider) (f : ResolvedProvider → ResolvedProvider)
    (hf : ∀ r ∈ acc, (f r).key = r.key ∧ (f r).multiProvider = r.multiProvider)
    (k : DIKey) (m : Bool) : accHasFlag (acc.map f) k m ↔ accHasFlag acc k m := by
  constructor
  · rintro ⟨q, hq, hqk, hqm⟩
    rcases List.mem_map.mp hq with ⟨r, hr, rfl⟩
    exact ⟨r, hr, ((hf r hr).1).symm.trans hqk, ((hf r hr).2).symm.trans hqm⟩
  · rintro ⟨r, hr, hrk, hrm⟩
    exact ⟨f r, List.mem_map.mpr ⟨r, hr, rfl⟩, ((hf r hr).1).trans hrk,
      ((hf r hr).2).trans hrm⟩

theorem accWFMap (acc : List ResolvedProvider) (f : ResolvedProvider → ResolvedProvider)
    (hf : ∀ r ∈ acc, (f r).key = r.key) (hwf : accWF acc) : accWF (acc.map f) := by
  unfold accWF
  rw [List.pairwise_map]
  refine hwf.imp_of_mem ?_
  intro a b ha hb hne
  rw [hf a ha, hf b hb]
  exact hne

theorem accWFAppendSingle (acc : List ResolvedProvider) (x : ResolvedProvider)
    (hwf : accWF acc) (hx : ∀ q ∈ acc, q.key ≠ x.key) : accWF (acc ++ [x]) := by
  unfold accWF
  rw [List.pairwise_append]
  refine ⟨hwf, List.pairwise_singleton _ _, ?_⟩
  intro a ha b hb
  rcases List.mem_singleton.mp hb with rfl
  exact hx a ha

theorem findNoneKeys (acc : List ResolvedProvider) (x : DIKey)
    (h : acc.find? (fun q => q.key == x) = none) : ∀ q ∈ acc, q.key ≠ x := by
  intro q hq
  have := List.find?_eq_none.mp h q hq
  simpa using this

theorem findSomeProps (acc : List ResolvedProvider) (x : DIKey) (q : ResolvedProvider)
    (h : acc.find? (fun r => r.key == x) = some q) : q ∈ acc ∧ q.key = x := by
  refine ⟨List.mem_of_find?_eq_some h, ?_⟩
  have := List.find?_some h
  simpa using this

theorem mixedAtConsAppend (acc : List ResolvedProvider) (p : NormProvider)
    (rest : List NormProvider) (k : DIKey) :
    MixedAt acc (p :: rest) k ↔ MixedAt (acc ++ [toResolved p]) rest k := by
  have h : ∀ m : Bool,
      (accHasFlag (acc ++ [toResolved p]) k m ∨ entsHasFlag rest k m) ↔
      (accHasFlag acc k m ∨ entsHasFlag (p :: rest) k m) := by
    intro m
    rw [accHasFlagAppendSingle, entsHasFlagCons]
    simp only [toResolved]
    tauto
  constructor
  · rintro ⟨u, w⟩
    exact ⟨(h true).mpr u, (h false).mpr w⟩
  · rintro ⟨u, w⟩
    exact ⟨(h true).mp u, (h false).mp w⟩

theorem mixedAtCovered (acc : List ResolvedProvider) (p : NormProvider)
    (rest : List NormProvider) (k : DIKey)
    (hcov : accHasFlag acc p.provide p.multi) :
    MixedAt acc (p :: rest) k ↔ MixedAt acc rest k := by
  have h : ∀ m : Bool,
      (accHasFlag acc k m ∨ entsHasFlag (p :: rest) k m) ↔
      (accHasFlag acc k m ∨ entsHasFlag rest k m) := by
    intro m
    rw [entsHasFlagCons]
    constructor
    · rintro (ha | (⟨hk, hm⟩ | he))
      · exact Or.inl ha
      · subst hk
        subst hm
        exact Or.inl hcov
      · exact Or.inr he
    · rintro (ha | he)
      · exact Or.inl ha
      · exact Or.inr (Or.inr he)
  constructor
  · rintro ⟨u, w⟩
    exact ⟨(h true).mp u, (h false).mp w⟩
  · rintro ⟨u, w⟩
    exact ⟨(h true).mpr u, (h false).mpr w⟩

theorem mixedAtMap (acc : List ResolvedProvider) (f : ResolvedProvider → ResolvedProvider)
    (rest : List NormProvider) (k : DIKey)
    (hf : ∀ r ∈ acc, (f r).key = r.key ∧ (f r).multiProvider = r.multiProvider) :
    MixedAt (acc.map f) rest k ↔ MixedAt acc rest k := by
  have h : ∀ m : Bool, accHasFlag (acc.map f) k m ↔ accHasFlag acc k m :=
    fun m => accHasFlagMap acc f hf k m
  constructor
  · rintro ⟨u, w⟩
    refine ⟨?_, ?_⟩
    · rcases u with u | u
      · exact Or.inl ((h true).mp u)
      · exact Or.inr u
    · rcases w with w | w
      · exact Or.inl ((h false).mp w)
      · exact Or.inr w
  · rintro ⟨u, w⟩
    refine ⟨?_, ?_⟩
    · rcases u with u | u
      · exact Or.inl ((h true).mpr u)
      · exact Or.inr u
    · rcases w with w | w
      · exact Or.inl ((h false).mpr w)
      · exact Or.inr w

theorem mergeOneNone (acc : List ResolvedProvider) (x : ResolvedProvider)
    (hfind : acc.find? (fun q => q.key == x.key) = none) :
    mergeOne acc x = .ok (acc ++ [x]) := by
  simp [mergeOne, hfind]

theorem mergeOneConflict (acc : List ResolvedProvider) (x : ResolvedProvider)
    (q : ResolvedProvider) (hfind : acc.find? (fun r => r.key == x.key) = some q)
    (hne : q.multiProvider ≠ x.multiProvider) :
    mergeOne acc x = .error (.mixedMulti x.key) := by
  have hb : (q.multiProvider != x.multiProvider) = true := by simpa using hne
  simp [mergeOne, hfind, hb]

theorem mergeOneSameMulti (acc : List ResolvedProvider) (x : ResolvedProvider)
    (q : ResolvedProvider) (hfind : acc.find? (fun r => r.key == x.key) = some q)
    (heq : q.multiProvider = x.multiProvider) (hx : x.multiProvider = true) :
    mergeOne acc x = .ok (acc.map (fun r =>
      if r.key == x.key then
        { r with resolvedFactories := r.resolvedFactories ++ x.resolvedFactories }
      else r)) := by
  have hb : (q.multiProvider != x.multiProvider) = false := by simp [heq]
  have hq : q.multiProvider = true := heq.trans hx
  simp [mergeOne, hfind, hb, hx, hq]

theorem mergeOneSameNonMulti (acc : List ResolvedProvider) (x : ResolvedProvider)
    (q : ResolvedProvider) (hfind : acc.find? (fun r => r.key == x.key) = some q)
    (heq : q.multiProvider = x.multiProvider) (hx : x.multiProvider = false) :
    mergeOne acc x = .ok (acc.map (fun r => if r.key == x.key then x else r)) := by
  have hb : (q.multiProvider != x.multiProvider) = false := by simp [heq]
  have hq : q.multiProvider = false := heq.trans hx
  simp [mergeOne, hfind, hb, hx, hq]

theorem mergeAllConsOk (acc acc2 : List ResolvedProvider) (p : NormProvider)
    (rest : List NormProvider) (hok : mergeOne acc (toResolved p) = .ok acc2) :
    mergeAll acc (p :: rest) = mergeAll acc2 rest := by
  simp only [mergeAll, hok]

theorem mergeAllConsErr (acc : List ResolvedProvider) (p : NormProvider)
    (rest : List NormProvider) (e : ResolveError)
    (herr : mergeOne acc (toResolved p) = .error e) :
    mergeAll acc (p :: rest) = .error e := by
  simp only [mergeAll, herr]

theorem mergeAllMixedError (rest : List NormProvider) :
    ∀ (acc : List ResolvedProvider) (k : DIKey), accWF acc → MixedAt acc rest k →
      ∃ k2, mergeAll acc rest = .error (.mixedMulti k2) ∧ MixedAt acc rest k2 := by
  induction rest with
  | nil =>
    intro acc k hwf hmix
    rcases hmix with ⟨h1, h0⟩
    rcases h1 with h1 | h1
    · rcases h0 with h0 | h0
      · exact absurd h0 (fun h0 => accWFNoBothFlags acc hwf k h1 h0)
      · exact absurd h0 (entsHasFlagNil k false)
    · exact absurd h1 (entsHasFlagNil k true)
  | cons p rest ih =>
    intro acc k hwf hmix
    have hkey : (toResolved p).key = p.provide := rfl
    have hmp : (toResolved p).multiProvider = p.multi := rfl
    rcases hfind : acc.find? (fun q => q.key == (toResolved p).key) with _ | q
    · have hkeys := findNoneKeys acc (toResolved p).key hfind
      have hwf2 := accWFAppendSingle acc (toResolved p) hwf hkeys
      have hmix2 := (mixedAtConsAppend acc p rest k).mp hmix
      rcases ih (acc ++ [toResolved p]) k hwf2 hmix2 with ⟨k2, herr, hm2⟩
      refine ⟨k2, ?_, (mixedAtConsAppend acc p rest k2).mpr hm2⟩
      rw [mergeAllConsOk acc _ p rest (mergeOneNone acc (toResolved p) hfind)]
      exact herr
    · rcases findSomeProps acc (toResolved p).key q hfind with ⟨hqmem, hqkey⟩
      by_cases hne : q.multiProvider = (toResolved p).multiProvider
      · have hcov : accHasFlag acc p.provide p.multi := ⟨q, hqmem, hqkey.trans hkey, hne⟩
        have hmixr : MixedAt acc rest k := (mixedAtCovered acc p rest k hcov).mp hmix
        rcases hpm : (toResolved p).multiProvider with _ | _
        · have hf : ∀ r ∈ acc,
              ((fun r => if r.key == (toResolved p).key then toResolved p else r) r).key
                = r.key ∧
              ((fun r => if r.key == (toResolved p).key then toResolved p else r) r).multiProvider
                = r.multiProvider := by
            intro r hr
            rcases hc : (r.key == (toResolved p).key) with _ | _
            · simp [hc]
            · have hrk : r.key = (toResolved p).key := by simpa using hc
              have hrq : r = q := accWFUnique acc hwf r q hr hqmem (hrk.trans hqkey.symm)
              constructor
              · simp only [hc, if_true]
                exact hrk.symm
              · simp only [hc, if_true]
                rw [hpm, hrq, hne, hpm]
          have hwf2 := accWFMap acc _ (fun r hr => (hf r hr).1) hwf
          rcases ih (acc.map (fun r => if r.key == (toResolved p).key then toResolved p else r))
              k hwf2 ((mixedAtMap acc _ rest k hf).mpr hmixr) with ⟨k2, herr, hm2⟩
          refine ⟨k2, ?_, (mixedAtCovered acc p rest k2 hcov).mpr
            ((mixedAtMap acc _ rest k2 hf).mp hm2)⟩
          rw [mergeAllConsOk acc _ p rest
            (mergeOneSameNonMulti acc (toResolved p) q hfind hne hpm)]
          exact herr
        · have hf : ∀ r ∈ acc,
              ((fun r => if r.key == (toResolved p).key then
                  { r with resolvedFactories := r.resolvedFactories ++
                      (toResolved p).resolvedFactories } else r) r).key = r.key ∧
              ((fun r => if r.key == (toResolved p).key then
                  { r with resolvedFactories := r.resolvedFactories ++
                      (toResolved p).resolvedFactories } else r) r).multiProvider
                = r.multiProvider := by
            intro r hr
            rcases hc : (r.key == (toResolved p).key) with _ | _
            · simp [hc]
            · simp [hc]
          have hwf2 := accWFMap acc _ (fun r hr => (hf r hr).1) hwf
          rcases ih (acc.map (fun r => if r.key == (toResolved p).key then
              { r with resolvedFactories := r.resolvedFactories ++
                  (toResolved p).resolvedFactories } else r))
              k hwf2 ((mixedAtMap acc _ rest k hf).mpr hmixr) with ⟨k2, herr, hm2⟩
          refine ⟨k2, ?_, (mixedAtCovered acc p rest k2 hcov).mpr
            ((mixedAtMap acc _ rest k2 hf).mp hm2)⟩
          rw [mergeAllConsOk acc _ p rest
            (mergeOneSameMulti acc (toResolved p) q hfind hne hpm)]
          exact herr
      · refine ⟨(toResolved p).key, ?_, ?_⟩
        · exact mergeAllConsErr acc p rest _ (mergeOneConflict acc (toResolved p) q hfind hne)
        · rw [hkey]
          rcases hpm : p.multi with _ | _
          · refine ⟨Or.inl ⟨q, hqmem, hqkey.trans hkey, ?_⟩,
              Or.inr ⟨p, List.mem_cons_self p rest, rfl, hpm⟩⟩
            rcases hqm : q.multiProvider with _ | _
            · exact absurd (hqm.trans (hmp.trans hpm).symm) hne
            · rfl
          · refine ⟨Or.inr ⟨p, List.mem_cons_self p rest, rfl, hpm⟩,
              Or.inl ⟨q, hqmem, hqkey.trans hkey, ?_⟩⟩
            rcases hqm : q.multiProvider with _ | _
            · rfl
            · exact absurd (hqm.trans (hmp.trans hpm).symm) hne

/-- C3: for every raw provider list in which some token has at least one
declaration flagged multi and at least one declaration not flagged multi,
provider resolution fails with MixedMultiProviderError naming a mixed
token — in particular the offending token itself when it is the only
mixed one — regardless of the order of the conflicting declarations. -/
theorem C3_mixed_multi_providers_error (refl : DIKey → List Dependency)
    (raw : List RawProvider) (k : DIKey)
    (hmix : isMixed (normalizeRawList refl raw) k) :
    ∃ k2, resolveRaw refl raw = .error (.mixedMulti k2) ∧
      isMixed (normalizeRawList refl raw) k2 ∧
      ((∀ j, isMixed (normalizeRawList refl raw) j → j = k) → k2 = k) := by
  have h0 : MixedAt [] (normalizeRawList refl raw) k := by
    rcases hmix with ⟨h1, h2⟩
    exact ⟨Or.inr h1, Or.inr h2⟩
  rcases mergeAllMixedError (normalizeRawList refl raw) [] k List.Pairwise.nil h0 with
    ⟨k2, herr, hm2⟩
  have hm2x : isMixed (normalizeRawList refl raw) k2 := by
    rcases hm2 with ⟨u, w⟩
    rcases u with u | u
    · rcases u with ⟨q, hq, _⟩
      cases hq
    · rcases w with w | w
      · rcases w with ⟨q, hq, _⟩
        cases hq
      · exact ⟨u, w⟩
  refine ⟨k2, ?_, hm2x, fun huniq => huniq k2 hm2x⟩
  simp only [resolveRaw, resolveNormalized]
  exact herr

/-- Witness for C3: token 3 declared once multi and once non-multi, in
both orders. -/
theorem C3_witness :
    (∃ k2, resolveRaw (fun _ => [])
        [.single ⟨3, .make, [], true⟩, .single ⟨3, .make, [], false⟩] =
          .error (.mixedMulti k2) ∧
      isMixed (normalizeRawList (fun _ => [])
        [.single ⟨3, .make, [], true⟩, .single ⟨3, .make, [], false⟩]) k2 ∧
      ((∀ j, isMixed (normalizeRawList (fun _ => [])
        [.single ⟨3, .make, [], true⟩, .single ⟨3, .make, [], false⟩]) j → j = 3) →
        k2 = 3)) ∧
    (∃ k2, resolveRaw (fun _ => [])
        [.single ⟨3, .make, [], false⟩, .single ⟨3, .make, [], true⟩] =
          .error (.mixedMulti k2) ∧
      isMixed (normalizeRawList (fun _ => [])
        [.single ⟨3, .make, [], false⟩, .single ⟨3, .make, [], true⟩]) k2 ∧
      ((∀ j, isMixed (normalizeRawList (fun _ => [])
        [.single ⟨3, .make, [], false⟩, .single ⟨3, .make, [], true⟩]) j → j = 3) →
        k2 = 3)) := by
  constructor
  · refine C3_mixed_multi_providers_error (fun _ => [])
      [.single ⟨3, .make, [], true⟩, .single ⟨3, .make, [], false⟩] 3
      ⟨⟨⟨3, .make, [], true⟩, ?_, rfl, rfl⟩, ⟨⟨3, .make, [], false⟩, ?_, rfl, rfl⟩⟩ <;>
      simp [normalizeRawList, normalizeRaw]
  · refine C3_mixed_multi_providers_error (fun _ => [])
      [.single ⟨3, .make, [], false⟩, .single ⟨3, .make, [], true⟩] 3
      ⟨⟨⟨3, .make, [], true⟩, ?_, rfl, rfl⟩, ⟨⟨3, .make, [], false⟩, ?_, rfl, rfl⟩⟩ <;>
      simp [normalizeRawList, normalizeRaw]

theorem findEqHeadAccFor (acc : List ResolvedProvider) (k : DIKey) :
    acc.find? (fun q => q.key == k) = (accFor acc k).head? := by
  induction acc with
  | nil => rfl
  | cons x xs ih =>
    rcases hx : (x.key == k) with _ | _
    · simp only [accFor, List.filter_cons, hx, if_false, List.find?_cons, Bool.false_eq_true]
      exact ih
    · simp [accFor, List.filter_cons, List.find?_cons, hx]

theorem getLastConsOfSome (p : NormProvider) (l : List NormProvider) (x : NormProvider)
    (h : l.getLast? = some x) : (p :: l).getLast? = some x := by
  cases l with
  | nil => cases h
  | cons y ys => rw [List.getLast?_cons_cons]; exact h

theorem getLastNoneIffNil (l : List NormProvider) : l.getLast? = none ↔ l = [] := by
  cases l with
  | nil => simp
  | cons y ys =>
    constructor
    · intro h
      exact absurd h (by simp [List.getLast?_cons])
    · intro h
      cases h

theorem getLastMemNorm (l : List NormProvider) (x : NormProvider)
    (h : l.getLast? = some x) : x ∈ l := by
  induction l with
  | nil => cases h
  | cons y ys ih =>
    cases ys with
    | nil =>
      simp only [List.getLast?_singleton, Option.some.injEq] at h
      simp [h]
    | cons z zs =>
      rw [List.getLast?_cons_cons] at h
      exact List.mem_cons_of_mem y (ih h)

theorem accForAppendSingle (acc : List ResolvedProvider) (x : ResolvedProvider) (k : DIKey) :
    accFor (acc ++ [x]) k = accFor acc k ++ (if x.key == k then [x] else []) := by
  simp only [accFor, List.filter_append]
  rcases hx : (x.key == k) with _ | _ <;> simp [List.filter, hx]

theorem accForMapId (acc : List ResolvedProvider) (f : ResolvedProvider → ResolvedProvider)
    (k : DIKey) (hkp : ∀ r ∈ acc, (f r).key = r.key)
    (hid : ∀ r ∈ acc, r.key = k → f r = r) :
    accFor (acc.map f) k = accFor acc k := by
  induction acc with
  | nil => rfl
  | cons x xs ih =>
    have hx := hkp x (List.mem_cons_self x xs)
    simp only [List.map_cons, accFor, List.filter_cons, hx]
    rcases hxk : (x.key == k) with _ | _
    · simp only [hxk, if_false, Bool.false_eq_true]
      exact ih (fun r hr => hkp r (List.mem_cons_of_mem x hr))
        (fun r hr hk => hid r (List.mem_cons_of_mem x hr) hk)
    · have hfx : f x = x := hid x (List.mem_cons_self x xs) (by simpa using hxk)
      simp only [hxk, if_true, hfx]
      rw [List.cons_inj_right]
      exact ih (fun r hr => hkp r (List.mem_cons_of_mem x hr))
        (fun r hr hk => hid r (List.mem_cons_of_mem x hr) hk)

theorem accForMapAsMap (acc : List ResolvedProvider) (f : ResolvedProvider → ResolvedProvider)
    (k : DIKey) (hkp : ∀ r ∈ acc, (f r).key = r.key) :
    accFor (acc.map f) k = (accFor acc k).map f := by
  induction acc with
  | nil => rfl
  | cons x xs ih =>
    have hx := hkp x (List.mem_cons_self x xs)
    simp only [List.map_cons, accFor, List.filter_cons, hx]
    rcases hxk : (x.key == k) with _ | _
    · simp only [hxk, if_false, Bool.false_eq_true]
      exact ih (fun r hr => hkp r (List.mem_cons_of_mem x hr))
    · simp only [hxk, if_true, List.map_cons]
      rw [List.cons_inj_right]
      exact ih (fun r hr => hkp r (List.mem_cons_of_mem x hr))

theorem entriesForCons (p : NormProvider) (rest : List NormProvider) (k : DIKey) :
    entriesFor (p :: rest) k =
      (if p.provide == k then [p] else []) ++ entriesFor rest k := by
  simp only [entriesFor, List.filter_cons]
  rcases hp : (p.provide == k) with _ | _ <;> simp [hp]

theorem mergeAllLastWins (rest : List NormProvider) :
    ∀ (acc res : List ResolvedProvider) (k : DIKey),
      accWF acc →
      (∀ p ∈ entriesFor rest k, p.multi = false) →
      (accFor acc k = [] ∨ ∃ fs, accFor acc k = [⟨k, fs, false⟩]) →
      mergeAll acc rest = .ok res →
      accFor res k = (match (entriesFor rest k).getLast? with
        | some pl => [toResolved pl]
        | none => accFor acc k) := by
  induction rest with
  | nil =>
    intro acc res k hwf hall hacc hok
    have hres : acc = res := by simpa [mergeAll] using hok
    subst hres
    rfl
  | cons p rest ih =>
    intro acc res k hwf hall hacc hok
    have hkey : (toResolved p).key = p.provide := rfl
    have hall2 : ∀ q2 ∈ entriesFor rest k, q2.multi = false := by
      intro q2 hq2
      refine hall q2 ?_
      rw [entriesForCons]
      exact List.mem_append.mpr (Or.inr hq2)
    rcases hfind : acc.find? (fun q => q.key == (toResolved p).key) with _ | q
    · have hok2 : mergeAll (acc ++ [toResolved p]) rest = .ok res := by
        rw [← mergeAllConsOk acc _ p rest (mergeOneNone acc (toResolved p) hfind)]
        exact hok
      have hwf2 := accWFAppendSingle acc (toResolved p) hwf (findNoneKeys acc _ hfind)
      by_cases hpk : p.provide = k
      · have hpmem : p ∈ entriesFor (p :: rest) k := by
          rw [entriesForCons]
          simp [hpk]
        have hpm : p.multi = false := hall p hpmem
        have hfindk : acc.find? (fun q => q.key == k) = none := by
          simpa only [hkey, hpk] using hfind
        have haccnil : accFor acc k = [] := by
          rw [← List.head?_eq_none_iff]
          rw [← findEqHeadAccFor]
          exact hfindk
        have hbeq : ((toResolved p).key == k) = true := by simp [hkey, hpk]
        have hacc2 : accFor (acc ++ [toResolved p]) k = [toResolved p] := by
          rw [accForAppendSingle, haccnil, hbeq]
          simp
        have hshape : toResolved p = ⟨k, [mkFac p], false⟩ := by
          simp [toResolved, mkFac, hpk, hpm]
        have hih := ih (acc ++ [toResolved p]) res k hwf2 hall2
          (Or.inr ⟨[mkFac p], by rw [hacc2, hshape]⟩) hok2
        have hentcons : entriesFor (p :: rest) k = p :: entriesFor rest k := by
          rw [entriesForCons]
          simp [hpk]
        rcases hes : (entriesFor rest k).getLast? with _ | pl
        · have hesnil : entriesFor rest k = [] := (getLastNoneIffNil _).mp hes
          rw [hentcons, hesnil]
          simp only [List.getLast?_singleton]
          rw [hih]
          simp only [hes]
          exact hacc2
        · rw [hentcons, getLastConsOfSome p _ pl hes]
          rw [hih]
          simp only [hes]
      · have hbeq : ((toResolved p).key == k) = false := by simp [hkey, hpk]
        have hacc2 : accFor (acc ++ [toResolved p]) k = accFor acc k := by
          rw [accForAppendSingle, hbeq]
          simp
        have hent : entriesFor (p :: rest) k = entriesFor rest k := by
          rw [entriesForCons]
          have : (p.provide == k) = false := by simp [hpk]
          simp [this]
        have hih := ih (acc ++ [toResolved p]) res k hwf2 hall2 (by rw [hacc2]; exact hacc) hok2
        rw [hent, hih, hacc2]
    · rcases findSomeProps acc (toResolved p).key q hfind with ⟨hqmem, hqkey⟩
      by_cases hne : q.multiProvider = (toResolved p).multiProvider
      · by_cases hpk : p.provide = k
        · have hpmem : p ∈ entriesFor (p :: rest) k := by
            rw [entriesForCons]
            simp [hpk]
          have hpm : p.multi = false := hall p hpmem
          have hpmr : (toResolved p).multiProvider = false := hpm
          have hfindk : acc.find? (fun q2 => q2.key == k) = some q := by
            simpa only [hkey, hpk] using hfind
          have hhead : (accFor acc k).head? = some q := by
            rw [← findEqHeadAccFor]
            exact hfindk
          rcases hacc with haccnil | ⟨fs, haccone⟩
          · rw [haccnil] at hhead
            cases hhead
          · rw [haccone] at hhead
            have hq : q = ⟨k, fs, false⟩ := by
              simpa using hhead.symm
          -- non-multi merge branch
            have hone := mergeOneSameNonMulti acc (toResolved p) q hfind hne hpmr
            have hok2 : mergeAll (acc.map (fun r =>
                if r.key == (toResolved p).key then toResolved p else r)) rest = .ok res := by
              rw [← mergeAllConsOk acc _ p rest hone]
              exact hok
            have hkp : ∀ r ∈ acc, ((fun r =>
                if r.key == (toResolved p).key then toResolved p else r) r).key = r.key := by
              intro r hr
              rcases hc : (r.key == (toResolved p).key) with _ | _
              · simp [hc]
              · have : r.key = (toResolved p).key := by simpa using hc
                simp only [hc, if_true]
                exact this.symm
            have hwf2 := accWFMap acc _ hkp hwf
            have hacc2 : accFor (acc.map (fun r =>
                if r.key == (toResolved p).key then toResolved p else r)) k
                = [toResolved p] := by
              rw [accForMapAsMap acc _ k hkp, haccone]
              have hc : ((⟨k, fs, false⟩ : ResolvedProvider).key == (toResolved p).key)
                  = true := by
                simp [hkey, hpk]
              simp only [List.map_cons, List.map_nil, hc, if_true]
            have hshape : toResolved p = ⟨k, [mkFac p], false⟩ := by
              simp [toResolved, mkFac, hpk, hpm]
            have hih := ih _ res k hwf2 hall2
              (Or.inr ⟨[mkFac p], by rw [hacc2, hshape]⟩) hok2
            have hentcons : entriesFor (p :: rest) k = p :: entriesFor rest k := by
              rw [entriesForCons]
              simp [hpk]
            rcases hes : (entriesFor rest k).getLast? with _ | pl
            · have hesnil : entriesFor rest k = [] := (getLastNoneIffNil _).mp hes
              rw [hentcons, hesnil]
              simp only [List.getLast?_singleton]
              rw [hih]
              simp only [hes]
              exact hacc2
            · rw [hentcons, getLastConsOfSome p _ pl hes]
              rw [hih]
              simp only [hes]
        · have hent : entriesFor (p :: rest) k = entriesFor rest k := by
            rw [entriesForCons]
            have : (p.provide == k) = false := by simp [hpk]
            simp [this]
          rcases hpmr : (toResolved p).multiProvider with _ | _
          · have hone := mergeOneSameNonMulti acc (toResolved p) q hfind hne hpmr
            have hok2 : mergeAll (acc.map (fun r =>
                if r.key == (toResolved p).key then toResolved p else r)) rest = .ok res := by
              rw [← mergeAllConsOk acc _ p rest hone]
              exact hok
            have hkp : ∀ r ∈ acc, ((fun r =>
                if r.key == (toResolved p).key then toResolved p else r) r).key = r.key := by
              intro r hr
              rcases hc : (r.key == (toResolved p).key) with _ | _
              · simp [hc]
              · have : r.key = (toResolved p).key := by simpa using hc
                simp only [hc, if_true]
                exact this.symm
            have hid : ∀ r ∈ acc, r.key = k → ((fun r =>
                if r.key == (toResolved p).key then toResolved p else r) r) = r := by
              intro r hr hrk
              have hc : (r.key == (toResolved p).key) = false := by
                have hnk : ¬ k = p.provide := fun h2 => hpk h2.symm
                simp only [hkey]
                simp [hrk, hnk]
              simp [hc]
            have hacc2 : accFor (acc.map (fun r =>
                if r.key == (toResolved p).key then toResolved p else r)) k
                = accFor acc k := accForMapId acc _ k hkp hid
            have hih := ih _ res k (accWFMap acc _ hkp hwf) hall2
              (by rw [hacc2]; exact hacc) hok2
            rw [hent, hih, hacc2]
          · have hone := mergeOneSameMulti acc (toResolved p) q hfind hne hpmr
            have hok2 : mergeAll (acc.map (fun r =>
                if r.key == (toResolved p).key then
                  { r with resolvedFactories := r.resolvedFactories ++
                      (toResolved p).resolvedFactories }
                else r)) rest = .ok res := by
              rw [← mergeAllConsOk acc _ p rest hone]
              exact hok
            have hkp : ∀ r ∈ acc, ((fun r =>
                if r.key == (toResolved p).key then
                  { r with resolvedFactories := r.resolvedFactories ++
                      (toResolved p).resolvedFactories }
                else r) r).key = r.key := by
              intro r hr
              rcases hc : (r.key == (toResolved p).key) with _ | _
              · simp [hc]
              · simp [hc]
            have hid : ∀ r ∈ acc, r.key = k → ((fun r =>
                if r.key == (toResolved p).key then
                  { r with resolvedFactories := r.resolvedFactories ++
                      (toResolved p).resolvedFactories }
                else r) r) = r := by
              intro r hr hrk
              have hc : (r.key == (toResolved p).key) = false := by
                have hnk : ¬ k = p.provide := fun h2 => hpk h2.symm
                simp only [hkey]
                simp [hrk, hnk]
              simp [hc]
            have hacc2 : accFor (acc.map (fun r =>
                if r.key == (toResolved p).key then
                  { r with resolvedFactories := r.resolvedFactories ++
                      (toResolved p).resolvedFactories }
                else r)) k = accFor acc k := accForMapId acc _ k hkp hid
            have hih := ih _ res k (accWFMap acc _ hkp hwf) hall2
              (by rw [hacc2]; exact hacc) hok2
            rw [hent, hih, hacc2]
      · have herr := mergeAllConsErr acc p rest _ (mergeOneConflict acc (toResolved p) q hfind hne)
        rw [herr] at hok
        exact Except.noConfusion hok

theorem mergeAllMultiOrder (rest : List NormProvider) :
    ∀ (acc res : List ResolvedProvider) (k : DIKey) (cur : Option (List ResolvedFactory)),
      accWF acc →
      (∀ p ∈ entriesFor rest k, p.multi = true) →
      accFor acc k = (match cur with
        | none => []
        | some fs => [⟨k, fs, true⟩]) →
      mergeAll acc rest = .ok res →
      accFor res k = (match cur, entriesFor rest k with
        | none, [] => []
        | none, es => [⟨k, es.map mkFac, true⟩]
        | some fs, es => [⟨k, fs ++ es.map mkFac, true⟩]) := by
  induction rest with
  | nil =>
    intro acc res k cur hwf hall hacc hok
    have hres : acc = res := by simpa [mergeAll] using hok
    subst hres
    rcases cur with _ | fs
    · simpa [entriesFor] using hacc
    · rw [hacc]
      simp [entriesFor]
  | cons p rest ih =>
    intro acc res k cur hwf hall hacc hok
    have hkey : (toResolved p).key = p.provide := rfl
    have hall2 : ∀ q2 ∈ entriesFor rest k, q2.multi = true := by
      intro q2 hq2
      refine hall q2 ?_
      rw [entriesForCons]
      exact List.mem_append.mpr (Or.inr hq2)
    rcases hfind : acc.find? (fun q => q.key == (toResolved p).key) with _ | q
    · have hok2 : mergeAll (acc ++ [toResolved p]) rest = .ok res := by
        rw [← mergeAllConsOk acc _ p rest (mergeOneNone acc (toResolved p) hfind)]
        exact hok
      have hwf2 := accWFAppendSingle acc (toResolved p) hwf (findNoneKeys acc _ hfind)
      by_cases hpk : p.provide = k
      · have hpmem : p ∈ entriesFor (p :: rest) k := by
          rw [entriesForCons]
          simp [hpk]
        have hpm : p.multi = true := hall p hpmem
        have hfindk : acc.find? (fun q => q.key == k) = none := by
          simpa only [hkey, hpk] using hfind
        have haccnil : accFor acc k = [] := by
          rw [← List.head?_eq_none_iff, ← findEqHeadAccFor]
          exact hfindk
        rcases cur with _ | fs
        · have hbeq : ((toResolved p).key == k) = true := by simp [hkey, hpk]
          have hacc2 : accFor (acc ++ [toResolved p]) k = [toResolved p] := by
            rw [accForAppendSingle, haccnil, hbeq]
            simp
          have hshape : toResolved p = ⟨k, [mkFac p], true⟩ := by
            simp [toResolved, mkFac, hpk, hpm]
          have hih := ih (acc ++ [toResolved p]) res k (some [mkFac p]) hwf2 hall2
            (by rw [hacc2, hshape]) hok2
          have hentcons : entriesFor (p :: rest) k = p :: entriesFor rest k := by
            rw [entriesForCons]
            simp [hpk]
          rw [hentcons, hih]
          simp
        · rw [hacc] at haccnil
          exact absurd haccnil (by simp)
      · have hbeq : ((toResolved p).key == k) = false := by simp [hkey, hpk]
        have hacc2 : accFor (acc ++ [toResolved p]) k = accFor acc k := by
          rw [accForAppendSingle, hbeq]
          simp
        have hent : entriesFor (p :: rest) k = entriesFor rest k := by
          rw [entriesForCons]
          have : (p.provide == k) = false := by simp [hpk]
          simp [this]
        have hih := ih (acc ++ [toResolved p]) res k cur hwf2 hall2
          (by rw [hacc2]; exact hacc) hok2
        rw [hent, hih]
    · rcases findSomeProps acc (toResolved p).key q hfind with ⟨hqmem, hqkey⟩
      by_cases hne : q.multiProvider = (toResolved p).multiProvider
      · by_cases hpk : p.provide = k
        · have hpmem : p ∈ entriesFor (p :: rest) k := by
            rw [entriesForCons]
            simp [hpk]
          have hpm : p.multi = true := hall p hpmem
          have hpmr : (toResolved p).multiProvider = true := hpm
          have hfindk : acc.find? (fun q2 => q2.key == k) = some q := by
            simpa only [hkey, hpk] using hfind
          have hhead : (accFor acc k).head? = some q := by
            rw [← findEqHeadAccFor]
            exact hfindk
          rcases cur with _ | fs
          · rw [hacc] at hhead
            cases hhead
          · rw [hacc] at hhead
            have hq : q = ⟨k, fs, true⟩ := by
              simpa using hhead.symm
            have hone := mergeOneSameMulti acc (toResolved p) q hfind hne hpmr
            have hok2 : mergeAll (acc.map (fun r =>
                if r.key == (toResolved p).key then
                  { r with resolvedFactories := r.resolvedFactories ++
                      (toResolved p).resolvedFactories }
                else r)) rest = .ok res := by
              rw [← mergeAllConsOk acc _ p rest hone]
              exact hok
            have hkp : ∀ r ∈ acc, ((fun r =>
                if r.key == (toResolved p).key then
                  { r with resolvedFactories := r.resolvedFactories ++
                      (toResolved p).resolvedFactories }
                else r) r).key = r.key := by
              intro r hr
              rcases hc : (r.key == (toResolved p).key) with _ | _
              · simp [hc]
              · simp [hc]
            have hbeq : ((⟨k, fs, true⟩ : ResolvedProvider).key == (toResolved p).key)
                = true := by
              simp [hkey, hpk]
            have hacc2 : accFor (acc.map (fun r =>
                if r.key == (toResolved p).key then
                  { r with resolvedFactories := r.resolvedFactories ++
                      (toResolved p).resolvedFactories }
                else r)) k = [⟨k, fs ++ [mkFac p], true⟩] := by
              rw [accForMapAsMap acc _ k hkp, hacc]
              simp only [List.map_cons, List.map_nil, hbeq, if_true]
              rfl
            have hih := ih _ res k (some (fs ++ [mkFac p])) (accWFMap acc _ hkp hwf) hall2
              hacc2 hok2
            have hentcons : entriesFor (p :: rest) k = p :: entriesFor rest k := by
              rw [entriesForCons]
              simp [hpk]
            rw [hentcons, hih]
            simp
        · have hent : entriesFor (p :: rest) k = entriesFor rest k := by
            rw [entriesForCons]
            have : (p.provide == k) = false := by simp [hpk]
            simp [this]
          rcases hpmr : (toResolved p).multiProvider with _ | _
          · have hone := mergeOneSameNonMulti acc (toResolved p) q hfind hne hpmr
            have hok2 : mergeAll (acc.map (fun r =>
                if r.key == (toResolved p).key then toResolved p else r)) rest = .ok res := by
              rw [← mergeAllConsOk acc _ p rest hone]
              exact hok
            have hkp : ∀ r ∈ acc, ((fun r =>
                if r.key == (toResolved p).key then toResolved p else r) r).key = r.key := by
              intro r hr
              rcases hc : (r.key == (toResolved p).key) with _ | _
              · simp [hc]
              · have : r.key = (toResolved p).key := by simpa using hc
                simp only [hc, if_true]
                exact this.symm
            have hid : ∀ r ∈ acc, r.key = k → ((fun r =>
                if r.key == (toResolved p).key then toResolved p else r) r) = r := by
              intro r hr hrk
              have hc : (r.key == (toResolved p).key) = false := by
                have hnk : ¬ k = p.provide := fun h2 => hpk h2.symm
                simp only [hkey]
                simp [hrk, hnk]
              simp [hc]
            have hacc2 : accFor (acc.map (fun r =>
                if r.key == (toResolved p).key then toResolved p else r)) k
                = accFor acc k := accForMapId acc _ k hkp hid
            have hih := ih _ res k cur (accWFMap acc _ hkp hwf) hall2
              (by rw [hacc2]; exact hacc) hok2
            rw [hent, hih]
          · have hone := mergeOneSameMulti acc (toResolved p) q hfind hne hpmr
            have hok2 : mergeAll (acc.map (fun r =>
                if r.key == (toResolved p).key then
                  { r with resolvedFactories := r.resolvedFactories ++
                      (toResolved p).resolvedFactories }
                else r)) rest = .ok res := by
              rw [← mergeAllConsOk acc _ p rest hone]
              exact hok
            have hkp : ∀ r ∈ acc, ((fun r =>
                if r.key == (toResolved p).key then
                  { r with resolvedFactories := r.resolvedFactories ++
                      (toResolved p).resolvedFactories }
                else r) r).key = r.key := by
              intro r hr
              rcases hc : (r.key == (toResolved p).key) with _ | _
              · simp [hc]
              · simp [hc]
            have hid : ∀ r ∈ acc, r.key = k → ((fun r =>
                if r.key == (toResolved p).key then
                  { r with resolvedFactories := r.resolvedFactories ++
                      (toResolved p).resolvedFactories }
                else r) r) = r := by
              intro r hr hrk
              have hc : (r.key == (toResolved p).key) = false := by
                have hnk : ¬ k = p.provide := fun h2 => hpk h2.symm
                simp only [hkey]
                simp [hrk, hnk]
              simp [hc]
            have hacc2 : accFor (acc.map (fun r =>
                if r.key == (toResolved p).key then
                  { r with resolvedFactories := r.resolvedFactories ++
                      (toResolved p).resolvedFactories }
                else r)) k = accFor acc k := accForMapId acc _ k hkp hid
            have hih := ih _ res k cur (accWFMap acc _ hkp hwf) hall2
              (by rw [hacc2]; exact hacc) hok2
            rw [hent, hih]
      · have herr := mergeAllConsErr acc p rest _ (mergeOneConflict acc (toResolved p) q hfind hne)
        rw [herr] at hok
        exact Except.noConfusion hok

/-- C4: for every raw provider list and token: when every declaration for
the token in the flattened list is non-multi, resolution keeps exactly one
ResolvedProvider for that token holding exactly one ResolvedFactory, the
one of the last declaration in flattened order (last-write-wins
shadowing), flagged multiProvider false; when instead every declaration
for the token is multi, resolution keeps one ResolvedProvider holding one
ResolvedFactory per declaration in encounter order, flagged multiProvider
true. -/
theorem C4_last_write_wins_and_multi_order (refl : DIKey → List Dependency)
    (raw : List RawProvider) (k : DIKey) (res : List ResolvedProvider)
    (hok : resolveRaw refl raw = .ok res)
    (hne : entriesFor (normalizeRawList refl raw) k ≠ []) :
    ((∀ p ∈ entriesFor (normalizeRawList refl raw) k, p.multi = false) →
      ∃ pl, (entriesFor (normalizeRawList refl raw) k).getLast? = some pl ∧
        accFor res k = [⟨k, [mkFac pl], false⟩]) ∧
    ((∀ p ∈ entriesFor (normalizeRawList refl raw) k, p.multi = true) →
      accFor res k = [⟨k, (entriesFor (normalizeRawList refl raw) k).map mkFac, true⟩]) := by
  have hok2 : mergeAll [] (normalizeRawList refl raw) = .ok res := hok
  constructor
  · intro hall
    have h := mergeAllLastWins (normalizeRawList refl raw) [] res k List.Pairwise.nil
      hall (Or.inl rfl) hok2
    rcases hes : (entriesFor (normalizeRawList refl raw) k).getLast? with _ | pl
    · exact absurd ((getLastNoneIffNil _).mp hes) hne
    · refine ⟨pl, rfl, ?_⟩
      rw [h]
      simp only [hes]
      have hplmem : pl ∈ entriesFor (normalizeRawList refl raw) k := getLastMemNorm _ pl hes
      have hplk : pl.provide = k := by
        have hm := List.mem_filter.mp hplmem
        simpa using hm.2
      have hplm : pl.multi = false := hall pl hplmem
      simp [toResolved, mkFac, hplk, hplm]
  · intro hall
    have h := mergeAllMultiOrder (normalizeRawList refl raw) [] res k none List.Pairwise.nil
      hall rfl hok2
    rw [h]
    rcases hes : entriesFor (normalizeRawList refl raw) k with _ | ⟨p0, tl⟩
    · exact absurd hes hne
    · rfl

/-- Witness for C4: token 1 with two non-multi declarations keeps only
the second; token 2 with two multi declarations keeps both factories in
declaration order. -/
theorem C4_witness :
    (∃ pl, (entriesFor (normalizeRawList (fun _ => [])
        [.single ⟨1, .make, [], false⟩, .single ⟨1, .value .nullv, [], false⟩]) 1).getLast?
          = some pl ∧
      accFor [⟨1, [⟨.value .nullv, []⟩], false⟩] 1 = [⟨1, [mkFac pl], false⟩]) ∧
    accFor [⟨2, [⟨.make, []⟩, ⟨.value .nullv, []⟩], true⟩] 2 =
      [⟨2, (entriesFor (normalizeRawList (fun _ => [])
        [.single ⟨2, .make, [], true⟩, .single ⟨2, .value .nullv, [], true⟩]) 2).map mkFac,
        true⟩] := by
  constructor
  · refine (C4_last_write_wins_and_multi_order (fun _ => [])
      [.single ⟨1, .make, [], false⟩, .single ⟨1, .value .nullv, [], false⟩] 1
      [⟨1, [⟨.value .nullv, []⟩], false⟩] rfl ?_).1 ?_
    · intro h
      exact List.noConfusion h
    · intro p hp
      simp [entriesFor, normalizeRawList, normalizeRaw] at hp
      rcases hp with h | h <;> subst h <;> rfl
  · refine (C4_last_write_wins_and_multi_order (fun _ => [])
      [.single ⟨2, .make, [], true⟩, .single ⟨2, .value .nullv, [], true⟩] 2
      [⟨2, [⟨.make, []⟩, ⟨.value .nullv, []⟩], true⟩] rfl ?_).2 ?_
    · intro h
      exact List.noConfusion h
    · intro p hp
      simp [entriesFor, normalizeRawList, normalizeRaw] at hp
      rcases hp with h | h <;> subst h <;> rfl

theorem presSRefl (stack : List DIKey) (st : InjState) : PresS stack st st :=
  ⟨rfl, Nat.le_refl _, fun _ _ h => h, fun _ h _ => h⟩

theorem presSTrans (stack : List DIKey) (st st1 st2 : InjState)
    (h1 : PresS stack st st1) (h2 : PresS stack st1 st2) : PresS stack st st2 := by
  rcases h1 with ⟨hp1, hn1, hm1, hz1⟩
  rcases h2 with ⟨hp2, hn2, hm2, hz2⟩
  refine ⟨hp2.trans hp1, hn1.trans hn2, fun j w hj => hm2 j w (hm1 j w hj), ?_⟩
  intro j hj hcond
  refine hz2 j (hz1 j hj hcond) ?_
  rcases hcond with hcond | hcond
  · exact Or.inl (by rw [hp1]; exact hcond)
  · exact Or.inr hcond

theorem presSMono (s s2 : List DIKey) (st st2 : InjState)
    (hsub : ∀ j, j ∈ s → j ∈ s2) (h : PresS s2 st st2) : PresS s st st2 := by
  rcases h with ⟨hp, hn, hm, hz⟩
  refine ⟨hp, hn, hm, ?_⟩
  intro j hj hcond
  refine hz j hj ?_
  rcases hcond with hcond | hcond
  · exact Or.inl hcond
  · exact Or.inr (hsub j hcond)

theorem presSBumpNext (stack : List DIKey) (st st1 : InjState) (h : PresS stack st st1) :
    PresS stack st { st1 with nextId := st1.nextId + 1 } := by
  rcases h with ⟨hp, hn, hm, hz⟩
  exact ⟨hp, hn.trans (Nat.le_succ _), hm, hz⟩

theorem containsFalseNotMem (l : List DIKey) (k : DIKey) (h : l.contains k = false) :
    ¬ k ∈ l := by
  induction l with
  | nil =>
    intro hm
    cases hm
  | cons x xs ih =>
    intro hm
    simp only [List.contains_cons, Bool.or_eq_false_iff] at h
    rcases List.mem_cons.mp hm with rfl | hm2
    · have hx := h.1
      simp at hx
    · exact ih h.2 hm2

theorem wfCacheLookup (st : InjState) (k : DIKey) (v0 : Inst)
    (hwf : WFCache st = true) (hl : lookupCache st.cache k = some v0) :
    Inst.idsLt st.nextId v0 = true := by
  unfold lookupCache at hl
  rcases hf : st.cache.find? (fun e => e.1 == k) with _ | e
  · rw [hf] at hl
    cases hl
  · rw [hf] at hl
    have hmem : e ∈ st.cache := List.mem_of_find?_eq_some hf
    have he : e.2 = v0 := by simpa using hl
    rw [← he]
    exact List.all_eq_true.mp hwf e hmem

theorem idsLtNeObj (b m : Nat) (v0 : Inst) (fields : List Inst)
    (hv : Inst.idsLt b v0 = true) (hbm : b ≤ m) : v0 ≠ Inst.obj m fields := by
  intro he
  subst he
  simp only [Inst.idsLt, Bool.and_eq_true, decide_eq_true_eq] at hv
  exact absurd hv.1 (Nat.not_lt.mpr hbm)

theorem presDepsChain (world : Bool) (fuel : Nat)
    (hget : ∀ st stack k nf v st2, WFProviders st →
      getByKey world fuel st stack k nf = .ok (v, st2) →
      PresS stack st st2 ∧ (nf = none → lookupCache st2.cache k = some v)) :
    (∀ st stack d v st2, WFProviders st →
      getByDep world fuel st stack d = .ok (v, st2) → PresS stack st st2) ∧
    (∀ deps st stack vs st2, WFProviders st →
      resolveDeps world fuel st stack deps = .ok (vs, st2) → PresS stack st st2) ∧
    (∀ st stack k f v st2, WFProviders st →
      instFactory world fuel st stack k f = .ok (v, st2) →
      stack.contains k = false ∧ PresS (stack ++ [k]) st st2) ∧
    (∀ fs st stack k vs st2, WFProviders st →
      instFactories world fuel st stack k fs = .ok (vs, st2) →
      PresS (stack ++ [k]) st st2 ∧ (fs ≠ [] → stack.contains k = false)) ∧
    (∀ st stack k p v st2, WFProviders st → p.resolvedFactories ≠ [] →
      instProvider world fuel st stack k p = .ok (v, st2) →
      stack.contains k = false ∧ PresS (stack ++ [k]) st st2) := by
  have hdep : ∀ st stack d v st2, WFProviders st →
      getByDep world fuel st stack d = .ok (v, st2) → PresS stack st st2 := by
    intro st stack d v st2 hwfp hok
    simp only [getByDep] at hok
    exact (hget st stack d.key _ v st2 hwfp hok).1
  have hdeps : ∀ deps st stack vs st2, WFProviders st →
      resolveDeps world fuel st stack deps = .ok (vs, st2) → PresS stack st st2 := by
    intro deps
    induction deps with
    | nil =>
      intro st stack vs st2 hwfp hok
      simp only [resolveDeps, Except.ok.injEq, Prod.mk.injEq] at hok
      rw [← hok.2]
      exact presSRefl stack st
    | cons d ds ih =>
      intro st stack vs st2 hwfp hok
      simp only [resolveDeps] at hok
      rcases h1 : getByDep world fuel st stack d with e | ⟨v1, st1⟩
      · rw [h1] at hok
        exact Except.noConfusion hok
      · rw [h1] at hok
        dsimp only [] at hok
        rcases h2 : resolveDeps world fuel st1 stack ds with e | ⟨vs1, st3⟩
        · rw [h2] at hok
          exact Except.noConfusion hok
        · rw [h2] at hok
          simp only [Except.ok.injEq, Prod.mk.injEq] at hok
          have hst : st3 = st2 := hok.2
          have p1 := hdep st stack d v1 st1 hwfp h1
          have hwfp1 : WFProviders st1 := by
            unfold WFProviders at hwfp ⊢
            rw [p1.1]
            exact hwfp
          have p2 := ih st1 stack vs1 st3 hwfp1 h2
          rw [← hst]
          exact presSTrans stack st st1 st3 p1 p2
  have hfac : ∀ st stack k f v st2, WFProviders st →
      instFactory world fuel st stack k f = .ok (v, st2) →
      stack.contains k = false ∧ PresS (stack ++ [k]) st st2 := by
    intro st stack k f v st2 hwfp hok
    simp only [instFactory] at hok
    rcases hcont : stack.contains k with _ | _
    · simp only [hcont, Bool.false_eq_true, if_false] at hok
      rcases hds : resolveDeps world fuel st (stack ++ [k]) f.deps with e | ⟨args, st1⟩
      · rw [hds] at hok
        exact Except.noConfusion hok
      · rw [hds] at hok
        have pd := hdeps f.deps st (stack ++ [k]) args st1 hwfp hds
        refine ⟨rfl, ?_⟩
        rcases hkind : f.kind with _ | v0 | _
        · rw [hkind] at hok
          simp only [Except.ok.injEq, Prod.mk.injEq] at hok
          rw [← hok.2]
          exact presSBumpNext _ _ _ pd
        · rw [hkind] at hok
          simp only [Except.ok.injEq, Prod.mk.injEq] at hok
          rw [← hok.2]
          exact pd
        · rw [hkind] at hok
          rcases hw : world with _ | _
          · rw [hw] at hok
            simp only [Bool.false_eq_true, if_false, Except.ok.injEq, Prod.mk.injEq] at hok
            rw [← hok.2]
            exact presSBumpNext _ _ _ pd
          · rw [hw] at hok
            simp only [if_true] at hok
            exact Except.noConfusion hok
    · simp only [hcont, if_true] at hok
      exact Except.noConfusion hok
  have hfacs : ∀ fs st stack k vs st2, WFProviders st →
      instFactories world fuel st stack k fs = .ok (vs, st2) →
      PresS (stack ++ [k]) st st2 ∧ (fs ≠ [] → stack.contains k = false) := by
    intro fs
    induction fs with
    | nil =>
      intro st stack k vs st2 hwfp hok
      simp only [instFactories, Except.ok.injEq, Prod.mk.injEq] at hok
      rw [← hok.2]
      exact ⟨presSRefl _ st, fun h => absurd rfl h⟩
    | cons f fs ih =>
      intro st stack k vs st2 hwfp hok
      simp only [instFactories] at hok
      rcases h1 : instFactory world fuel st stack k f with e | ⟨v1, st1⟩
      · rw [h1] at hok
        exact Except.noConfusion hok
      · rw [h1] at hok
        dsimp only [] at hok
        rcases h2 : instFactories world fuel st1 stack k fs with e | ⟨vs1, st3⟩
        · rw [h2] at hok
          exact Except.noConfusion hok
        · rw [h2] at hok
          simp only [Except.ok.injEq, Prod.mk.injEq] at hok
          have ⟨hc1, p1⟩ := hfac st stack k f v1 st1 hwfp h1
          have hwfp1 : WFProviders st1 := by
            unfold WFProviders at hwfp ⊢
            rw [p1.1]
            exact hwfp
          have p2 := (ih st1 stack k vs1 st3 hwfp1 h2).1
          rw [← hok.2]
          exact ⟨presSTrans _ st st1 st3 p1 p2, fun _ => hc1⟩
  have hprov : ∀ st stack k p v st2, WFProviders st → p.resolvedFactories ≠ [] →
      instProvider world fuel st stack k p = .ok (v, st2) →
      stack.contains k = false ∧ PresS (stack ++ [k]) st st2 := by
    intro st stack k p v st2 hwfp hne hok
    simp only [instProvider] at hok
    rcases hm : p.multiProvider with _ | _
    · simp only [hm, Bool.false_eq_true, if_false] at hok
      rcases hfs : p.resolvedFactories with _ | ⟨f, fs2⟩
      · exact absurd hfs hne
      · rw [hfs] at hok
        exact hfac st stack k f v st2 hwfp hok
    · simp only [hm, if_true] at hok
      rcases hi : instFactories world fuel st stack k p.resolvedFactories with e | ⟨vs1, st1⟩
      · rw [hi] at hok
        exact Except.noConfusion hok
      · rw [hi] at hok
        simp only [Except.ok.injEq, Prod.mk.injEq] at hok
        have ⟨pres, hcons⟩ := hfacs p.resolvedFactories st stack k vs1 st1 hwfp hi
        rw [← hok.2]
        exact ⟨hcons hne, pres⟩
  exact ⟨hdep, hdeps, hfac, hfacs, hprov⟩

theorem invGetStep (world : Bool) (fuel : Nat) (st : InjState) (stack : List DIKey)
    (k : DIKey) (p : ResolvedProvider) (v1 : Inst) (st1 : InjState)
    (hwfp : WFProviders st)
    (hprov : ∀ st stack k p v st2, WFProviders st → p.resolvedFactories ≠ [] →
      instProvider world fuel st stack k p = .ok (v, st2) →
      stack.contains k = false ∧ PresS (stack ++ [k]) st st2)
    (hc : lookupCache st.cache k = none)
    (hp : findProvider st.providers k = some p)
    (hi : instProvider world fuel st stack k p = .ok (v1, st1)) :
    PresS stack st { st1 with cache := st1.cache ++ [(k, v1)] } ∧
    lookupCache (st1.cache ++ [(k, v1)]) k = some v1 := by
  have hpmem : p ∈ st.providers := List.mem_of_find?_eq_some hp
  have hpne : p.resolvedFactories ≠ [] := hwfp p hpmem
  rcases hprov st stack k p v1 st1 hwfp hpne hi with ⟨hcont, hpres⟩
  have hknotstack : ¬ k ∈ stack := containsFalseNotMem stack k hcont
  have hk1 : lookupCache st1.cache k = none :=
    hpres.2.2.2 k hc (Or.inr (List.mem_append.mpr (Or.inr (List.mem_singleton.mpr rfl))))
  have hcached : lookupCache (st1.cache ++ [(k, v1)]) k = some v1 := by
    rw [lookupCacheAppendNone st1.cache k k v1 hk1]
    simp
  refine ⟨?_, hcached⟩
  rcases hpres with ⟨hprovs, hnid, hmono, hnone⟩
  refine ⟨hprovs, hnid, ?_, ?_⟩
  · intro j w hj
    exact lookupCacheAppendSome _ _ j w (hmono j w hj)
  · intro j hj hcond
    have hjne : j ≠ k := by
      rcases hcond with hcond | hcond
      · intro he
        rw [he, hp] at hcond
        cases hcond
      · intro he
        rw [he] at hcond
        exact hknotstack hcond
    have hj1 : lookupCache st1.cache j = none := by
      apply hnone j hj
      rcases hcond with hcond | hcond
      · exact Or.inl hcond
      · exact Or.inr (List.mem_append.mpr (Or.inl hcond))
    rw [lookupCacheAppendNone st1.cache j k v1 hj1]
    have hkj : (k == j) = false := by
      have hnkj : ¬ k = j := fun h2 => hjne h2.symm
      simp [hnkj]
    rw [hkj]
    simp

theorem invGet (world : Bool) : ∀ fuel, ∀ st stack k nf v st2, WFProviders st →
    getByKey world fuel st stack k nf = .ok (v, st2) →
    PresS stack st st2 ∧ (nf = none → lookupCache st2.cache k = some v) := by
  intro fuel
  induction fuel with
  | zero =>
    intro st stack k nf v st2 hwfp hok
    rcases nf with _ | v0 <;> simp [getByKey] at hok
  | succ fuel ih =>
    have hprov := (presDepsChain world fuel ih).2.2.2.2
    intro st stack k nf v st2 hwfp hok
    rcases nf with _ | v0
    · rcases hc : lookupCache st.cache k with _ | w
      · rcases hp : findProvider st.providers k with _ | p
        · simp [getByKey, hc, hp] at hok
        · rcases hi : instProvider world fuel st stack k p with e | ⟨v1, st1⟩
          · simp [getByKey, hc, hp, hi] at hok
          · simp only [getByKey, hc, hp, hi, Except.ok.injEq, Prod.mk.injEq] at hok
            rcases hok with ⟨hv, hst⟩
            have hstep := invGetStep world fuel st stack k p v1 st1 hwfp hprov hc hp hi
            rw [← hst]
            refine ⟨hstep.1, fun _ => ?_⟩
            rw [← hv]
            exact hstep.2
      · simp only [getByKey, hc, Except.ok.injEq, Prod.mk.injEq] at hok
        rcases hok with ⟨hv, hst⟩
        rw [← hst]
        refine ⟨presSRefl stack st, fun _ => ?_⟩
        rw [hc, hv]
    · rcases hc : lookupCache st.cache k with _ | w
      · rcases hp : findProvider st.providers k with _ | p
        · simp only [getByKey, hc, hp, Except.ok.injEq, Prod.mk.injEq] at hok
          rcases hok with ⟨hv, hst⟩
          rw [← hst]
          exact ⟨presSRefl stack st, fun h => Option.noConfusion h⟩
        · rcases hi : instProvider world fuel st stack k p with e | ⟨v1, st1⟩
          · simp [getByKey, hc, hp, hi] at hok
          · simp only [getByKey, hc, hp, hi, Except.ok.injEq, Prod.mk.injEq] at hok
            rcases hok with ⟨hv, hst⟩
            have hstep := invGetStep world fuel st stack k p v1 st1 hwfp hprov hc hp hi
            rw [← hst]
            exact ⟨hstep.1, fun h => Option.noConfusion h⟩
      · simp only [getByKey, hc, Except.ok.injEq, Prod.mk.injEq] at hok
        rcases hok with ⟨hv, hst⟩
        rw [← hst]
        exact ⟨presSRefl stack st, fun h => Option.noConfusion h⟩

/-- C1: for every injector state and token with a provider, a `get` that
succeeds caches its instance, so a second `get` on the resulting state
returns the very same instance and leaves the state unchanged; and
`resolveAndInstantiate` of a token never adds the constructed instance to
the cache — when the token has no provider a subsequent `get` still fails
with NoProviderError — and never returns a previously cached instance for
that token: the constructed object is allocated fresh, distinct from any
cached value. -/
theorem C1_get_caches_rai_does_not (world : Bool) :
    (∀ fuel st k v st2, WFProviders st →
      Injector.get world fuel st k = .ok (v, st2) →
      ∀ f2, Injector.get world (f2+1) st2 k = .ok (v, st2)) ∧
    (∀ fuel st refl k v st2, WFProviders st →
      findProvider st.providers k = none → lookupCache st.cache k = none →
      resolveAndInstantiate world fuel st refl k = .ok (v, st2) →
      lookupCache st2.cache k = none ∧
      ∀ f2, Injector.get world (f2+1) st2 k = .error (.noProvider [k])) ∧
    (∀ fuel st refl k v0 v st2, WFProviders st → WFCache st = true →
      lookupCache st.cache k = some v0 →
      resolveAndInstantiate world fuel st refl k = .ok (v, st2) →
      v ≠ v0) := by
  refine ⟨?_, ?_, ?_⟩
  · intro fuel st k v st2 hwfp hok
    have hc2 : lookupCache st2.cache k = some v :=
      (invGet world fuel st [] k none v st2 hwfp hok).2 rfl
    intro f2
    simp [Injector.get, getByKey, hc2]
  · intro fuel st refl k v st2 hwfp hpn hcn hok
    have hprov := (presDepsChain world fuel (invGet world fuel)).2.2.2.2
    have hok2 : instProvider world fuel st [] k (toResolved ⟨k, .make, refl k, false⟩)
        = .ok (v, st2) := hok
    have hpne : (toResolved ⟨k, .make, refl k, false⟩).resolvedFactories ≠ [] := by
      simp [toResolved]
    rcases hprov st [] k (toResolved ⟨k, .make, refl k, false⟩) v st2 hwfp hpne hok2 with
      ⟨hcont, hpres⟩
    have hck2 : lookupCache st2.cache k = none :=
      hpres.2.2.2 k hcn (Or.inr (List.mem_append.mpr (Or.inr (List.mem_singleton.mpr rfl))))
    have hpk2 : findProvider st2.providers k = none := by
      rw [hpres.1]
      exact hpn
    refine ⟨hck2, fun f2 => ?_⟩
    simp [Injector.get, getByKey, hck2, hpk2]
  · intro fuel st refl k v0 v st2 hwfp hwfc hl hok
    have hdeps := (presDepsChain world fuel (invGet world fuel)).2.1
    have hokP : instProvider world fuel st [] k (toResolved ⟨k, .make, refl k, false⟩)
        = .ok (v, st2) := hok
    simp only [instProvider, toResolved] at hokP
    have hok2 : instFactory world fuel st [] k ⟨.make, refl k⟩ = .ok (v, st2) := hokP
    simp only [instFactory] at hok2
    have hcf : (([] : List DIKey).contains k) = false := rfl
    simp only [hcf, Bool.false_eq_true, if_false, List.nil_append] at hok2
    rcases hds : resolveDeps world fuel st [k] (ResolvedFactory.mk .make (refl k)).deps
        with e | ⟨args, st1⟩
    · rw [hds] at hok2
      exact Except.noConfusion hok2
    · rw [hds] at hok2
      dsimp only [] at hok2
      simp only [Except.ok.injEq, Prod.mk.injEq] at hok2
      have pd := hdeps (ResolvedFactory.mk .make (refl k)).deps st [k] args st1 hwfp hds
      have hnid : st.nextId ≤ st1.nextId := pd.2.1
      have hv0 : Inst.idsLt st.nextId v0 = true := wfCacheLookup st k v0 hwfc hl
      have hne := idsLtNeObj st.nextId st1.nextId v0 args hv0 hnid
      rw [← hok2.1]
      exact fun h => hne h.symm

/-- Witness for C1: a one-provider injector caches key 10 on first `get`
and returns the same instance again; resolving-and-instantiating key 9,
which has no provider, leaves its cache slot empty and a later `get`
fails; resolving-and-instantiating key 7 over a cache already holding an
instance for 7 returns a fresh object distinct from the cached one. -/
theorem C1_witness :
    Injector.get false 1
      ⟨[⟨10, [⟨.make, []⟩], false⟩], [(10, .obj 0 [])], 1⟩ 10 =
      .ok (.obj 0 [], ⟨[⟨10, [⟨.make, []⟩], false⟩], [(10, .obj 0 [])], 1⟩) ∧
    (lookupCache [] 9 = none ∧
      ∀ f2, Injector.get false (f2+1) ⟨[], [], 1⟩ 9 = .error (.noProvider [9])) ∧
    Inst.obj 1 [] ≠ Inst.obj 0 [] := by
  have hwfp1 : WFProviders ⟨[⟨10, [⟨.make, []⟩], false⟩], [], 0⟩ := by
    intro p hp
    rcases List.mem_singleton.mp hp with rfl
    simp
  have hwfp2 : WFProviders ⟨[], [], 0⟩ := by
    intro p hp
    cases hp
  have hwfp3 : WFProviders ⟨[], [(7, Inst.obj 0 [])], 1⟩ := by
    intro p hp
    cases hp
  have hev1 : Injector.get false 1 ⟨[⟨10, [⟨.make, []⟩], false⟩], [], 0⟩ 10 =
      .ok (.obj 0 [], ⟨[⟨10, [⟨.make, []⟩], false⟩], [(10, .obj 0 [])], 1⟩) := by
    simp [Injector.get, getByKey, instProvider, instFactory, resolveDeps,
      lookupCache, findProvider]
  have hev2 : resolveAndInstantiate false 1 ⟨[], [], 0⟩ (fun _ => []) 9 =
      .ok (.obj 0 [], ⟨[], [], 1⟩) := by
    simp [resolveAndInstantiate, instantiateResolved, toResolved, instProvider,
      instFactory, resolveDeps, lookupCache, findProvider]
  have hev3 : resolveAndInstantiate false 1 ⟨[], [(7, .obj 0 [])], 1⟩ (fun _ => []) 7 =
      .ok (.obj 1 [], ⟨[], [(7, .obj 0 [])], 2⟩) := by
    simp [resolveAndInstantiate, instantiateResolved, toResolved, instProvider,
      instFactory, resolveDeps, lookupCache, findProvider]
  refine ⟨?_, ?_, ?_⟩
  · exact (C1_get_caches_rai_does_not false).1 1
      ⟨[⟨10, [⟨.make, []⟩], false⟩], [], 0⟩ 10 (.obj 0 [])
      ⟨[⟨10, [⟨.make, []⟩], false⟩], [(10, .obj 0 [])], 1⟩ hwfp1 hev1 0
  · exact ⟨rfl, ((C1_get_caches_rai_does_not false).2.1 1 ⟨[], [], 0⟩ (fun _ => []) 9
      (.obj 0 []) ⟨[], [], 1⟩ hwfp2 rfl rfl hev2).2⟩
  · exact (C1_get_caches_rai_does_not false).2.2 1 ⟨[], [(7, .obj 0 [])], 1⟩ (fun _ => []) 7
      (.obj 0 []) (.obj 1 []) ⟨[], [(7, .obj 0 [])], 2⟩ hwfp3 rfl rfl hev3
